import Mathlib

/-!
Verification of the cost-based join-order optimizer
(`src/optimizer/join_order_optimizer.cpp`).

The development is a shallow embedding of the optimizer: the C++ functions are
translated into executable Lean definitions (stateful code becomes explicit
state passing; `size_t` arithmetic is modelled by `Nat`, since the cost model
of the optimizer is specified arithmetically and no claim depends on wrap
around).  Collaborator code that lives outside the provided sources
(`RelationSet` / `SetManager`, `QueryGraph`, the comparator helpers and the
logical-operator data types) is modelled from the specification; each such
definition carries a doc comment starting with `Modelled from the spec:`.
-/

namespace JoinOrder

/-! ## Relation sets

Modelled from the spec (§3, §4.1): a `RelationSet` is an immutable sorted
vector of relation ids; the `SetManager` interns sets so that pointer equality
coincides with content equality.  We therefore represent a relation set as a
strictly sorted `List Nat` and use value equality; `rsUnion` / `rsDiff` /
`rsIsSubset` model `RelationSet::Union`, `RelationSet::Difference` and
`RelationSet::IsSubset (super, sub)`. -/
abbrev RSet := List Nat

/-- Modelled from the spec: sorted insertion, used to build interned sets. -/
def rsInsert (x : Nat) : RSet → RSet
  | [] => [x]
  | y :: ys =>
    if x < y then x :: y :: ys
    else if x = y then y :: ys
    else y :: rsInsert x ys

/-- Modelled from the spec: build the interned set of an unordered collection
of ids (`SetManager::GetRelation` on a set of ids). -/
def rsOfList (l : List Nat) : RSet := l.foldr rsInsert []

/-- Modelled from the spec: `SetManager::Union`. -/
def rsUnion (a b : RSet) : RSet := a.foldr rsInsert b

/-- Modelled from the spec: `SetManager::Difference`. -/
def rsDiff (a b : RSet) : RSet := a.filter (fun x => !b.contains x)

/-- Modelled from the spec: `RelationSet::IsSubset (super, sub)` — every id of
`sub` is contained in `super` (this is the argument order used by
`GenerateJoins`). -/
def rsIsSubset (sup sub : RSet) : Bool := sub.all (fun x => sup.contains x)

/-! ## Expressions

Modelled from the spec (§6): expressions expose a kind (bound column ref with
`{table_index, depth}`, bound execution-time ref, comparison with a comparator
enum, logical NOT, subquery, other), and an ordered child traversal
(`EnumerateChildren`).  Generic "other" expressions are modelled with zero,
one or two children, which is enough to exercise every traversal in the
optimizer. -/

/-- Modelled from the spec: the comparator enum, in the source order of
`ExpressionType` from `COMPARE_EQUAL` through `COMPARE_NOTLIKE`.  The
range `COMPARE_EQUAL ..= COMPARE_GREATERTHANOREQUALTO` (the first six) is the
one accepted by the NOT-rewrite of `CreateJoinCondition`. -/
inductive CmpOp where
  | eq | ne | lt | gt | le | ge | like | notlike
  deriving DecidableEq, Repr

/-- Modelled from the spec: true for the comparators from `COMPARE_EQUAL`
through `COMPARE_GREATERTHANOREQUALTO`, the range tested by the NOT-rewrite in
`CreateJoinCondition`. -/
def CmpOp.negatable : CmpOp → Bool
  | .like => false
  | .notlike => false
  | _ => true

/-- Modelled from the spec (§6): `Flip(c)`: `<` ↔ `>`, `≤` ↔ `≥`, `=` → `=`,
`≠` → `≠`; applied when the operands of a comparison are swapped. -/
def CmpOp.flip : CmpOp → CmpOp
  | .lt => .gt
  | .gt => .lt
  | .le => .ge
  | .ge => .le
  | c => c

/-- Modelled from the spec (§6): `Negate(c)`: `=` ↔ `≠`, `<` ↔ `≥`, `>` ↔ `≤`;
applied when removing a wrapping logical NOT. -/
def CmpOp.negate : CmpOp → CmpOp
  | .eq => .ne
  | .ne => .eq
  | .lt => .ge
  | .ge => .lt
  | .gt => .le
  | .le => .gt
  | c => c

/-- Modelled from the spec (§6): boolean expression trees as seen by the
optimizer.  `boundColumnRef t d` is a bound column reference with table index
`t` and depth `d`; `boundRef` is a bound execution-time reference
(`ExpressionType::BOUND_REF`); `subquery c` is a subquery expression with
correlation flag `c`; `cmp` is a comparison (`ExpressionClass::COMPARISON`,
`COMPARE_EQUAL ..= COMPARE_NOTLIKE`); `opNot` is `OPERATOR_NOT`; `const`,
`func1` and `func2` stand for any other expression kind with zero, one or two
enumerated children. -/
inductive Expr where
  | boundColumnRef (tableIndex depth : Nat)
  | boundRef
  | subquery (isCorrelated : Bool)
  | cmp (op : CmpOp) (left right : Expr)
  | opNot (child : Expr)
  | const
  | func1 (child : Expr)
  | func2 (left right : Expr)
  deriving DecidableEq, Repr

/-- True exactly for comparison expressions, i.e. the test
`GetExpressionClass() == ExpressionClass::COMPARISON` (equivalently
`type >= COMPARE_EQUAL && type <= COMPARE_NOTLIKE`). -/
def Expr.isComparison : Expr → Bool
  | .cmp _ _ _ => true
  | _ => false

/-- The table indexes of the depth-0 bound column references of an
expression: the relations an operand references, before the mapping to
relation ids. -/
def Expr.tableRefs : Expr → RSet
  | .boundColumnRef t d => if d > 0 then [] else [t]
  | .cmp _ l r => rsUnion l.tableRefs r.tableRefs
  | .opNot c => c.tableRefs
  | .func1 c => c.tableRefs
  | .func2 l r => rsUnion l.tableRefs r.tableRefs
  | _ => []

/-! ## Binding extraction (`JoinOrderOptimizer::ExtractBindings`)

The C++ function mutates an `unordered_set<size_t> &bindings` accumulator and
returns a `bool`.  The accumulator is threaded explicitly; the relation
mapping (`relation_mapping`) is an association list from table index to
relation id.  Faithful details of the source: a bound column reference at
depth > 0, a `BOUND_REF`, or a correlated subquery clears the accumulator and
returns `false`; but a `false` return from a child does not stop
`EnumerateChildren` — the remaining children are still visited and may insert
new bindings after the clear. -/

/-- `JoinOrderOptimizer::ExtractBindings`: the C++ code threaded through the
mutable accumulator; returns `(can_reorder, bindings)`. -/
def extractBindings (mapping : List (Nat × Nat)) : Expr → RSet → Bool × RSet
  | .boundColumnRef t d, acc =>
    if d > 0 then (false, [])
    else (true, rsInsert ((mapping.lookup t).getD 0) acc)
  | .boundRef, _ => (false, [])
  | .subquery isCorr, acc =>
    if isCorr then (false, []) else (true, acc)
  | .cmp _ l r, acc =>
    let (b1, acc1) := extractBindings mapping l acc
    let (b2, acc2) := extractBindings mapping r acc1
    (b1 && b2, acc2)
  | .opNot c, acc => extractBindings mapping c acc
  | .const, acc => (true, acc)
  | .func1 c, acc => extractBindings mapping c acc
  | .func2 l r, acc =>
    let (b1, acc1) := extractBindings mapping l acc
    let (b2, acc2) := extractBindings mapping r acc1
    (b1 && b2, acc2)

/-- True when the expression contains, anywhere inside it, a bound column
reference at depth > 0, a `BOUND_REF`, or a correlated subquery — the
"poisoned" expressions of the specification (§4.3). -/
def Expr.poisoned : Expr → Bool
  | .boundColumnRef _ d => d > 0
  | .boundRef => true
  | .subquery isCorr => isCorr
  | .cmp _ l r => l.poisoned || r.poisoned
  | .opNot c => c.poisoned
  | .const => false
  | .func1 c => c.poisoned
  | .func2 l r => l.poisoned || r.poisoned

/-! ## Filter infos and the query graph -/

/-- `FilterInfo` (§3): index of the filter in the global `filters` list, the
relation set of the whole expression, and, for binary comparisons whose two
sides both have bindings, the relation sets of the two operands. -/
structure FilterInfo where
  filterIndex : Nat
  set : RSet := []
  leftSet : Option RSet := none
  rightSet : Option RSet := none
  deriving DecidableEq, Repr

/-- Modelled from the spec (§4.2): a query-graph hyperedge group from `efrom`
to `eto`.  The `filters` list collects the `FilterInfo`s of every predicate
connecting this ordered pair; a cross-product edge (`CreateEdge` with a null
info) contributes a group with no filters. -/
structure Edge where
  efrom : RSet
  eto : RSet
  filters : List FilterInfo
  deriving DecidableEq, Repr

/-- Modelled from the spec (§4.2): the neighbor information returned by
`QueryGraph::GetConnection` — the filters of the connecting edge group. -/
structure NeighborInfo where
  filters : List FilterInfo
  deriving DecidableEq, Repr

/-- Modelled from the spec (§4.2): `QueryGraph::CreateEdge` — append the info
(or nothing, for a cross-product edge) to the group keyed by `(from, to)`,
creating the group if absent. -/
def createEdge (edges : List Edge) (efrom eto : RSet) (info : Option FilterInfo) :
    List Edge :=
  match edges with
  | [] => [⟨efrom, eto, info.toList⟩]
  | e :: es =>
    if e.efrom = efrom ∧ e.eto = eto then
      ⟨e.efrom, e.eto, e.filters ++ info.toList⟩ :: es
    else
      e :: createEdge es efrom eto info

/-- Modelled from the spec (§4.2): `QueryGraph::GetConnection (A, B)` — the
neighbor info of the first edge group whose `from ⊆ A` and `to ⊆ B`. -/
def getConnection (edges : List Edge) (a b : RSet) : Option NeighborInfo :=
  (edges.find? (fun e => rsIsSubset a e.efrom && rsIsSubset b e.eto)).map
    (fun e => ⟨e.filters⟩)

/-- Modelled from the spec (§4.2): `QueryGraph::GetNeighbors (S, excl)` — the
ids `n = min T` over the target sets `T` of edges with `from ⊆ S` and
`T ∩ excl = ∅`, without duplicates, in edge order. -/
def getNeighbors (edges : List Edge) (s : RSet) (excl : RSet) : List Nat :=
  (edges.filterMap (fun e =>
    if rsIsSubset s e.efrom && e.eto.all (fun x => !excl.contains x) then
      e.eto.head?
    else none)).dedup

/-! ## Edge building (`JoinOrderOptimizer::Optimize`, lines 786-830)

For each extracted filter: build its `FilterInfo` (the relation set of the
whole expression comes from `ExtractBindings`, whose boolean result is
ignored, exactly as in the source); for comparisons with non-empty bindings on
both sides, record the operand sets and add the query-graph edges — one pair
of edges for disjoint sides, two pairs via set differences for overlapping
sides. -/
def buildEdgesStep (mapping : List (Nat × Nat)) (i : Nat) (filter : Expr)
    (edges : List Edge) : FilterInfo × List Edge :=
  let wholeSet := (extractBindings mapping filter []).2
  let info : FilterInfo := { filterIndex := i, set := wholeSet }
  match filter with
  | .cmp _ cl cr =>
    let leftBindings := (extractBindings mapping cl []).2
    let rightBindings := (extractBindings mapping cr []).2
    if leftBindings.length > 0 ∧ rightBindings.length > 0 then
      let info := { info with leftSet := some leftBindings,
                              rightSet := some rightBindings }
      if leftBindings ≠ rightBindings then
        if leftBindings.all (fun x => !rightBindings.contains x) then
          let edges := createEdge edges leftBindings rightBindings (some info)
          let edges := createEdge edges rightBindings leftBindings (some info)
          (info, edges)
        else
          let leftDifference := rsDiff leftBindings rightBindings
          let rightDifference := rsDiff rightBindings leftBindings
          let edges := createEdge edges leftBindings rightDifference (some info)
          let edges := createEdge edges rightDifference leftBindings (some info)
          let edges := createEdge edges leftDifference rightBindings (some info)
          let edges := createEdge edges rightBindings leftDifference (some info)
          (info, edges)
      else (info, edges)
    else (info, edges)
  | _ => (info, edges)

/-- The whole edge-building pass of `Optimize` over the extracted filters:
returns the `filter_infos` list and the query graph. -/
def buildEdges (mapping : List (Nat × Nat)) (filters : List Expr) :
    List FilterInfo × List Edge :=
  go 0 filters [] []
where
  go (i : Nat) : List Expr → List FilterInfo → List Edge →
      List FilterInfo × List Edge
  | [], infos, edges => (infos.reverse, edges)
  | f :: fs, infos, edges =>
    let (info, edges) := buildEdgesStep mapping i f edges
    go (i + 1) fs (info :: infos) edges

/-! ## Logical operators

Modelled from the spec (§6): a logical plan is a rooted tree of operator
nodes carrying an operator kind, child operators and raw boolean expressions.
Generic single-child pass-through operators are modelled by `projection`. -/

/-- Modelled from the spec: join types; the optimizer only distinguishes
`JoinType::INNER` from everything else, so one non-inner kind
(`leftOuter`) suffices together with `inner`. -/
inductive JoinType where
  | inner | leftOuter
  deriving DecidableEq, Repr

/-- Modelled from the spec: set-operation kinds (`UNION`, `EXCEPT`,
`INTERSECT`). -/
inductive SetOpKind where
  | union | except | intersect
  deriving DecidableEq, Repr

/-- `JoinCondition` (§6): an oriented comparison with `left` / `right`
expressions keyed to the join's left and right children. -/
structure JoinCondition where
  left : Expr
  right : Expr
  comparison : CmpOp
  deriving DecidableEq, Repr

/-- Modelled from the spec (§6): logical operators.  `get t c` is a base
table scan with table index `t` and cardinality estimate `c`;
`join jt conds exprs l r` is a `LogicalJoin` carrying both resolved join
conditions and raw expressions; `subqueryOp` is `LogicalSubquery`;
`projection` stands for any other single-child operator. -/
inductive LOp where
  | filter (exprs : List Expr) (child : LOp)
  | join (jt : JoinType) (conds : List JoinCondition) (exprs : List Expr)
      (left right : LOp)
  | crossProduct (left right : LOp)
  | get (tableIndex cardinality : Nat)
  | subqueryOp (tableIndex : Nat) (child : LOp)
  | tableFunction (tableIndex cardinality : Nat)
  | aggregate (child : LOp)
  | setOp (kind : SetOpKind) (left right : LOp)
  | projection (child : LOp)
  deriving DecidableEq, Repr

/-- `GetTableReferences`: collect the table indexes of all `GET`, `SUBQUERY`
and `TABLE_FUNCTION` operators in the subtree (threaded accumulator for the
mutated `unordered_set<size_t> &bindings`). -/
def getTableReferencesOp : LOp → RSet → RSet
  | .get t _, acc => rsInsert t acc
  | .subqueryOp t _, acc => rsInsert t acc
  | .tableFunction t _, acc => rsInsert t acc
  | .filter _ c, acc => getTableReferencesOp c acc
  | .join _ _ _ l r, acc => getTableReferencesOp r (getTableReferencesOp l acc)
  | .crossProduct l r, acc => getTableReferencesOp r (getTableReferencesOp l acc)
  | .aggregate c, acc => getTableReferencesOp c acc
  | .setOp _ l r, acc => getTableReferencesOp r (getTableReferencesOp l acc)
  | .projection c, acc => getTableReferencesOp c acc

/-- `PushFilter`: push an expression into a filter, creating the filter node
if the operator is not already one. -/
def pushFilter (node : LOp) (expr : Expr) : LOp :=
  match node with
  | .filter exprs child => .filter (exprs ++ [expr]) child
  | n => .filter [expr] n

/-! ## JoinSide and the join-condition resolver -/

/-- `JoinSide` (§4.8): which children's relations an expression references. -/
inductive JoinSide where
  | none | left | right | both
  deriving DecidableEq, Repr

/-- `CombineJoinSide`: `NONE + x = x`; `L + R = BOTH`; `L + L = L`. -/
def combineJoinSide (l r : JoinSide) : JoinSide :=
  if l = .none then r
  else if r = .none then l
  else if l ≠ r then .both
  else l

/-- `GetJoinSide`: compute the side of an expression relative to the left and
right table-binding sets.  Children combine via
`join_side = CombineJoinSide(child_side, join_side)` in enumeration order. -/
def getJoinSide (lb rb : RSet) : Expr → JoinSide
  | .boundColumnRef t d =>
    if d > 0 then .both
    else if lb.contains t then .left else .right
  | .boundRef => .none
  | .subquery _ => .both
  | .cmp _ l r => combineJoinSide (getJoinSide lb rb r) (getJoinSide lb rb l)
  | .opNot c => getJoinSide lb rb c
  | .const => .none
  | .func1 c => getJoinSide lb rb c
  | .func2 l r => combineJoinSide (getJoinSide lb rb r) (getJoinSide lb rb l)

/-- Structural size of an expression, used as the termination measure of the
NOT-rewrite recursion in `createJoinCondition`. -/
def Expr.esize : Expr → Nat
  | .cmp _ l r => l.esize + r.esize + 1
  | .opNot c => c.esize + 1
  | .func1 c => c.esize + 1
  | .func2 l r => l.esize + r.esize + 1
  | _ => 0

/-- The mutable context of `CreateJoinCondition`: the join's two children (the
target of filter pushes), its condition list, and the filter expressions
accumulated above the join by `PushFilter(op, expr)`. -/
structure CJState where
  lchild : LOp
  rchild : LOp
  conds : List JoinCondition
  above : List Expr
  deriving Repr

/-- `CreateJoinCondition`: turn one raw expression of a join into a pushed
filter, a proper `JoinCondition` (swapping operands and flipping the
comparator when they are oriented right/left), a retried negated comparison
(for `NOT (cmp)`), or a residual filter above the join. -/
def createJoinCondition (lb rb : RSet) (st : CJState) (expr : Expr) : CJState :=
  let totalSide := getJoinSide lb rb expr
  if totalSide ≠ .both then
    if totalSide = .left then { st with lchild := pushFilter st.lchild expr }
    else { st with rchild := pushFilter st.rchild expr }
  else
    match expr with
    | .cmp c l r =>
      let leftSide := getJoinSide lb rb l
      let rightSide := getJoinSide lb rb r
      if leftSide ≠ .both ∧ rightSide ≠ .both then
        let cond : JoinCondition :=
          if leftSide = .right then ⟨r, l, c.flip⟩ else ⟨l, r, c⟩
        { st with conds := st.conds ++ [cond] }
      else { st with above := st.above ++ [.cmp c l r] }
    | .opNot child =>
      match child with
      | .cmp c l r =>
        if c.negatable then
          createJoinCondition lb rb st (.cmp c.negate l r)
        else { st with above := st.above ++ [.opNot (.cmp c l r)] }
      | c => { st with above := st.above ++ [.opNot c] }
    | e => { st with above := st.above ++ [e] }
  termination_by expr.esize
  decreasing_by simp [Expr.esize]

/-- `JoinOrderOptimizer::ResolveJoinConditions`: resolve children bottom-up,
then turn the remaining raw expressions of every join operator into join
conditions / pushed filters and clear the raw expression list. -/
def resolveJoinConditions : LOp → LOp
  | .filter exprs child => .filter exprs (resolveJoinConditions child)
  | .join jt conds exprs l r =>
    let l' := resolveJoinConditions l
    let r' := resolveJoinConditions r
    if exprs.length > 0 then
      let lb := getTableReferencesOp l' []
      let rb := getTableReferencesOp r' []
      let st := exprs.foldl (createJoinCondition lb rb) ⟨l', r', conds, []⟩
      st.above.foldl pushFilter (.join jt st.conds [] st.lchild st.rchild)
    else .join jt conds exprs l' r'
  | .crossProduct l r =>
    .crossProduct (resolveJoinConditions l) (resolveJoinConditions r)
  | .get t c => .get t c
  | .subqueryOp t child => .subqueryOp t (resolveJoinConditions child)
  | .tableFunction t c => .tableFunction t c
  | .aggregate child => .aggregate (resolveJoinConditions child)
  | .setOp k l r => .setOp k (resolveJoinConditions l) (resolveJoinConditions r)
  | .projection child => .projection (resolveJoinConditions child)

/-- True when every join operator in the plan (of any join type) carries an
empty raw expression list. -/
def LOp.joinsClean : LOp → Bool
  | .filter _ c => c.joinsClean
  | .join _ _ exprs l r => exprs.isEmpty && l.joinsClean && r.joinsClean
  | .crossProduct l r => l.joinsClean && r.joinsClean
  | .get _ _ => true
  | .subqueryOp _ c => c.joinsClean
  | .tableFunction _ _ => true
  | .aggregate c => c.joinsClean
  | .setOp _ l r => l.joinsClean && r.joinsClean
  | .projection c => c.joinsClean

/-- True when every non-inner join operator in the plan carries an empty raw
expression list. -/
def LOp.nonInnerJoinsClean : LOp → Bool
  | .filter _ c => c.nonInnerJoinsClean
  | .join jt _ exprs l r =>
    (jt = JoinType.inner || exprs.isEmpty) && l.nonInnerJoinsClean &&
      r.nonInnerJoinsClean
  | .crossProduct l r => l.nonInnerJoinsClean && r.nonInnerJoinsClean
  | .get _ _ => true
  | .subqueryOp _ c => c.nonInnerJoinsClean
  | .tableFunction _ _ => true
  | .aggregate c => c.nonInnerJoinsClean
  | .setOp _ l r => l.nonInnerJoinsClean && r.nonInnerJoinsClean
  | .projection c => c.nonInnerJoinsClean

/-! ## Join trees and the memo -/

/-- `JoinNode` (§3): a leaf holds a relation set and its cardinality (with
cost 0); an internal node holds the connecting `NeighborInfo`, the two child
plans, and its computed cardinality and cost. -/
inductive JoinNode where
  | leaf (set : RSet) (cardinality : Nat)
  | node (set : RSet) (info : NeighborInfo) (left right : JoinNode)
      (cardinality cost : Nat)
  deriving DecidableEq, Repr

/-- The relation set of a join node. -/
def JoinNode.set : JoinNode → RSet
  | .leaf s _ => s
  | .node s _ _ _ _ _ => s

/-- The estimated cardinality of a join node. -/
def JoinNode.cardinality : JoinNode → Nat
  | .leaf _ c => c
  | .node _ _ _ _ c _ => c

/-- The cost of a join node; leaves cost 0. -/
def JoinNode.cost : JoinNode → Nat
  | .leaf _ _ => 0
  | .node _ _ _ _ _ c => c

/-- The non-swapping body of `CreateJoinTree`: join two plans whose left
cardinality is at least the right cardinality; the expected cardinality is
the product of the child cardinalities for a cross product (no filters in
`info`) and their maximum otherwise; the cost adds the child costs. -/
def createJoinTreeOrdered (set : RSet) (info : NeighborInfo)
    (left right : JoinNode) : JoinNode :=
  let expectedCardinality :=
    if info.filters.length = 0 then left.cardinality * right.cardinality
    else max left.cardinality right.cardinality
  .node set info left right expectedCardinality
    (expectedCardinality + left.cost + right.cost)

/-- The entry point of `CreateJoinTree`: the C++ function recurses once with
swapped arguments when `left->cardinality < right->cardinality`; since the
swapped call immediately takes the non-swapping branch, the single-step
recursion is written as a direct call of the ordered body. -/
def createJoinTree (set : RSet) (info : NeighborInfo) (left right : JoinNode) :
    JoinNode :=
  if left.cardinality < right.cardinality then
    createJoinTreeOrdered set info right left
  else createJoinTreeOrdered set info left right

/-! ## Optimizer state and pair emission -/

/-- The mutable state of one `JoinOrderOptimizer` invocation during join-order
search: the memo `plans`, the `pairs` counter, the query-graph edges (mutable
because the greedy fallback and `GenerateCrossProducts` add edges), and the
number of base relations. -/
structure OptState where
  plans : List (RSet × JoinNode)
  pairs : Nat
  edges : List Edge
  relationCount : Nat
  deriving Repr

/-- Insert or replace the memo entry for a set (`plans[new_set] = ...`). -/
def plansInsert (plans : List (RSet × JoinNode)) (s : RSet) (n : JoinNode) :
    List (RSet × JoinNode) :=
  match plans with
  | [] => [(s, n)]
  | (s', n') :: rest =>
    if s' = s then (s, n) :: rest else (s', n') :: plansInsert rest s n

/-- `JoinOrderOptimizer::EmitPair`: build the join tree of the two memoized
plans and install it when the set is absent from the memo or the new plan is
strictly cheaper; returns the winning plan.  (The fallback branch for a
missing side is unreachable: `EmitPair` is only called with memoized sides.) -/
def emitPair (st : OptState) (left right : RSet) (info : NeighborInfo) :
    JoinNode × OptState :=
  match st.plans.lookup left, st.plans.lookup right with
  | some leftPlan, some rightPlan =>
    let newSet := rsUnion left right
    let newPlan := createJoinTree newSet info leftPlan rightPlan
    match st.plans.lookup newSet with
    | some entry =>
      if newPlan.cost < entry.cost then
        (newPlan, { st with plans := plansInsert st.plans newSet newPlan })
      else (entry, st)
    | none => (newPlan, { st with plans := plansInsert st.plans newSet newPlan })
  | _, _ => (.leaf [] 0, st)

/-- `JoinOrderOptimizer::TryEmitPair`: bump the `pairs` counter; at 10 000
pairs stop searching exactly (return `false` without emitting), otherwise
emit the pair. -/
def tryEmitPair (st : OptState) (left right : RSet) (info : NeighborInfo) :
    Bool × OptState :=
  let st := { st with pairs := st.pairs + 1 }
  if st.pairs ≥ 10000 then (false, st)
  else (true, (emitPair st left right info).2)

/-! ## Exact enumeration (DPccp)

The four mutually recursive enumeration procedures of the source
(`EmitCSG`, `EnumerateCmpRecursive`, `EnumerateCSGRecursive` and their
neighbor loops).  The C++ recursion terminates because every recursive call
strictly grows an exclusion set bounded by the relation universe; the
embedding makes this explicit with a fuel parameter that every cross-call
decrements (`none` = out of fuel; `solveJoinOrderExactly` supplies fuel that
is large enough for any well-formed query graph).  The boolean result is the
early-termination signal of `TryEmitPair`. -/

/-- The exclusion set `EmitCSG` builds for a start node: every relation id
below the node's minimum element, plus the node itself. -/
def csgExcl (node : RSet) : RSet :=
  node.foldl (fun acc i => rsInsert i acc)
    ((List.range (node.headD 0)).foldl (fun acc i => rsInsert i acc) [])

/-- The first loop of `EnumerateCmpRecursive`: for each neighbor, if the
combined set `right ∪ {n}` is memoized and connected to `left`, try to emit
the pair. -/
def cmpEmitLoop (st : OptState) (left right : RSet) :
    List Nat → Option (Bool × OptState)
  | [] => some (true, st)
  | n :: ns =>
    let combinedSet := rsUnion right [n]
    if (st.plans.lookup combinedSet).isSome then
      match getConnection st.edges left combinedSet with
      | some connection =>
        let (ok, st') := tryEmitPair st left combinedSet connection
        if ok then cmpEmitLoop st' left right ns else some (false, st')
      | none => cmpEmitLoop st left right ns
    else cmpEmitLoop st left right ns

/-- The call tag of the mutually recursive enumeration procedures: `csg` is
`EmitCSG`, `csgLoop` its neighbor loop, `cmp` is `EnumerateCmpRecursive`,
`cmpLoop` its recursion loop, `csgRec` is `EnumerateCSGRecursive`,
`csgRecEmitLoop` its first (EmitCSG) loop and `csgRecLoop` its recursion
loop. -/
inductive EnumCall where
  | csg (node : RSet)
  | csgLoop (node : RSet) (neighbors : List Nat) (exclusionSet : RSet)
  | cmp (left right : RSet) (exclusionSet : RSet)
  | cmpLoop (left right : RSet) (neighbors : List Nat) (exclusionSet : RSet)
  | csgRec (node : RSet) (exclusionSet : RSet)
  | csgRecEmitLoop (node : RSet) (neighbors : List Nat)
  | csgRecLoop (node : RSet) (neighbors : List Nat) (exclusionSet : RSet)
  deriving Repr

/-- The mutually recursive enumeration procedures of the source, merged into
one function that structurally recurses on an explicit fuel (so that concrete
runs reduce definitionally).  Every recursive call consumes one unit of fuel;
`none` means the fuel ran out, which cannot happen for the generous fuel
supplied by `solveJoinOrderExactly`.  The boolean is the early-termination
signal of `TryEmitPair`. -/
def enumRun : Nat → OptState → EnumCall → Option (Bool × OptState)
  | 0, _, _ => none
  | fuel + 1, st, call =>
    match call with
    | .csg node =>
      -- EmitCSG: exclusion set = everything below min(node) plus node itself
      let exclusionSet := csgExcl node
      let neighbors := getNeighbors st.edges node exclusionSet
      if neighbors.length = 0 then some (true, st)
      else enumRun fuel st (.csgLoop node (rsOfList neighbors) exclusionSet)
    | .csgLoop node neighbors exclusionSet =>
      match neighbors with
      | [] => some (true, st)
      | n :: ns =>
        let afterEmit : Bool × OptState :=
          match getConnection st.edges node [n] with
          | some connection => tryEmitPair st node [n] connection
          | none => (true, st)
        match afterEmit with
        | (false, st') => some (false, st')
        | (true, st') =>
          match enumRun fuel st' (.cmp node [n] exclusionSet) with
          | none => none
          | some (false, st'') => some (false, st'')
          | some (true, st'') => enumRun fuel st'' (.csgLoop node ns exclusionSet)
    | .cmp left right exclusionSet =>
      let neighbors := getNeighbors st.edges right exclusionSet
      if neighbors.length = 0 then some (true, st)
      else
        match cmpEmitLoop st left right neighbors with
        | none => none
        | some (false, st') => some (false, st')
        | some (true, st') => enumRun fuel st' (.cmpLoop left right neighbors exclusionSet)
    | .cmpLoop left right neighbors exclusionSet =>
      match neighbors with
      | [] => some (true, st)
      | n :: ns =>
        match enumRun fuel st (.cmp left (rsUnion right [n]) (rsInsert n exclusionSet)) with
        | none => none
        | some (false, st') => some (false, st')
        | some (true, st') => enumRun fuel st' (.cmpLoop left right ns exclusionSet)
    | .csgRec node exclusionSet =>
      let neighbors := getNeighbors st.edges node exclusionSet
      if neighbors.length = 0 then some (true, st)
      else
        match enumRun fuel st (.csgRecEmitLoop node neighbors) with
        | none => none
        | some (false, st') => some (false, st')
        | some (true, st') => enumRun fuel st' (.csgRecLoop node neighbors exclusionSet)
    | .csgRecEmitLoop node neighbors =>
      match neighbors with
      | [] => some (true, st)
      | n :: ns =>
        let newSet := rsUnion node [n]
        if (st.plans.lookup newSet).isSome then
          match enumRun fuel st (.csg newSet) with
          | none => none
          | some (false, st') => some (false, st')
          | some (true, st') => enumRun fuel st' (.csgRecEmitLoop node ns)
        else enumRun fuel st (.csgRecEmitLoop node ns)
    | .csgRecLoop node neighbors exclusionSet =>
      match neighbors with
      | [] => some (true, st)
      | n :: ns =>
        match enumRun fuel st (.csgRec (rsUnion node [n]) (rsInsert n exclusionSet)) with
        | none => none
        | some (false, st') => some (false, st')
        | some (true, st') => enumRun fuel st' (.csgRecLoop node ns exclusionSet)

/-- `JoinOrderOptimizer::EmitCSG`. -/
def emitCSG (fuel : Nat) (st : OptState) (node : RSet) :
    Option (Bool × OptState) :=
  enumRun fuel st (.csg node)

/-- `JoinOrderOptimizer::EnumerateCmpRecursive`. -/
def enumerateCmpRecursive (fuel : Nat) (st : OptState) (left right : RSet)
    (exclusionSet : RSet) : Option (Bool × OptState) :=
  enumRun fuel st (.cmp left right exclusionSet)

/-- `JoinOrderOptimizer::EnumerateCSGRecursive`. -/
def enumerateCSGRecursive (fuel : Nat) (st : OptState) (node : RSet)
    (exclusionSet : RSet) : Option (Bool × OptState) :=
  enumRun fuel st (.csgRec node exclusionSet)

/-- The descending loop of `SolveJoinOrderExactly` over start nodes
`i = n-1 … 0`. -/
def solveExactLoop (fuel : Nat) (st : OptState) : Nat → Option (Bool × OptState)
  | 0 => some (true, st)
  | i + 1 =>
    match emitCSG fuel st [i] with
    | none => none
    | some (false, st') => some (false, st')
    | some (true, st') =>
      let exclusionSet := (List.range i).foldl (fun acc j => rsInsert j acc) []
      match enumerateCSGRecursive fuel st' [i] exclusionSet with
      | none => none
      | some (false, st'') => some (false, st'')
      | some (true, st'') => solveExactLoop fuel st'' i

/-- `JoinOrderOptimizer::SolveJoinOrderExactly`: dynamic programming over all
start nodes in descending id order.  The supplied fuel covers the deepest
possible recursion over a well-formed query graph. -/
def solveJoinOrderExactly (st : OptState) : Option (Bool × OptState) :=
  solveExactLoop
    (8 * (st.relationCount + st.edges.length + 2) *
      (st.relationCount + st.edges.length + 2))
    st st.relationCount

/-! ## Greedy fallback (Greedy Operator Ordering) -/

/-- The "two smallest" scan of `SolveJoinOrderApproximately` (lines 543-556):
two slots, each holding an index into `T` and the memoized plan; a fragment
replaces the first slot that is unset or has strictly larger cardinality. -/
def pickSmallestTwo (plans : List (RSet × JoinNode)) (t : List RSet) :
    Option (Nat × JoinNode) × Option (Nat × JoinNode) :=
  go t 0 none none
where
  go : List RSet → Nat → Option (Nat × JoinNode) → Option (Nat × JoinNode) →
      Option (Nat × JoinNode) × Option (Nat × JoinNode)
  | [], _, s0, s1 => (s0, s1)
  | r :: rs, i, s0, s1 =>
    let currentPlan := (plans.lookup r).getD (.leaf [] 0)
    match s0 with
    | none => go rs (i + 1) (some (i, currentPlan)) s1
    | some (_, p0) =>
      if p0.cardinality > currentPlan.cardinality then
        go rs (i + 1) (some (i, currentPlan)) s1
      else
        match s1 with
        | none => go rs (i + 1) s0 (some (i, currentPlan))
        | some (_, p1) =>
          if p1.cardinality > currentPlan.cardinality then
            go rs (i + 1) s0 (some (i, currentPlan))
          else go rs (i + 1) s0 s1

/-- The connected-pair scan of one greedy round (lines 520-539): every
connected pair is emitted into the memo (in index order `i < j`), and the pair
with the strictly smallest resulting cost is tracked. -/
def greedyScan (st : OptState) (t : List RSet) :
    Option (Nat × Nat × JoinNode) × OptState :=
  (pairIndexes t.length).foldl step (none, st)
where
  pairIndexes (len : Nat) : List (Nat × Nat) :=
    (List.range len).flatMap (fun i =>
      ((List.range len).filter (fun j => i < j)).map (fun j => (i, j)))
  step (acc : Option (Nat × Nat × JoinNode) × OptState) (ij : Nat × Nat) :
      Option (Nat × Nat × JoinNode) × OptState :=
    let (best, st) := acc
    let left := t.getD ij.1 []
    let right := t.getD ij.2 []
    match getConnection st.edges left right with
    | some connection =>
      let (node, st') := emitPair st left right connection
      match best with
      | none => (some (ij.1, ij.2, node), st')
      | some (_, _, bestNode) =>
        if node.cost < bestNode.cost then (some (ij.1, ij.2, node), st')
        else (best, st')
    | none => (best, st)

/-- One-step update of the worklist `T`: erase the larger index first, then
the smaller, then append the combined set. -/
def updateWorklist (t : List RSet) (bestLeft bestRight : Nat) (s : RSet) :
    List RSet :=
  ((t.eraseIdx bestRight).eraseIdx bestLeft) ++ [s]

/-- The main loop of `SolveJoinOrderApproximately`.  `none` models the two
fatal paths of the source: the failed
`assert(smallest_plans[0] && smallest_plans[1])` when the cardinalities seen
by the "two smallest" scan are strictly decreasing (the second slot is never
filled), and the failed `assert(connection)` after adding the forced
cross-product edge.  The fuel is the worklist length, which strictly
decreases every round. -/
def approxLoop (fuel : Nat) (st : OptState) (t : List RSet) : Option OptState :=
  match fuel with
  | 0 => if t.length > 1 then none else some st
  | fuel + 1 =>
    if t.length > 1 then
      match greedyScan st t with
      | (some (bestLeft, bestRight, bestConnection), st') =>
        approxLoop fuel st' (updateWorklist t bestLeft bestRight bestConnection.set)
      | (none, st') =>
        match pickSmallestTwo st'.plans t with
        | (some (index0, plan0), some (index1, plan1)) =>
          let left := plan0.set
          let right := plan1.set
          let st' := { st' with edges := createEdge st'.edges left right none }
          match getConnection st'.edges left right with
          | some connection =>
            let (bestConnection, st'') := emitPair st' left right connection
            let (bestLeft, bestRight) :=
              if index0 > index1 then (index1, index0) else (index0, index1)
            approxLoop fuel st''
              (updateWorklist t bestLeft bestRight bestConnection.set)
          | none => none
        | _ => none
    else some st

/-- `JoinOrderOptimizer::SolveJoinOrderApproximately`: Greedy Operator
Ordering starting from the singleton fragments. -/
def solveJoinOrderApproximately (st : OptState) : Option OptState :=
  let t := (List.range st.relationCount).map (fun i => [i])
  approxLoop t.length st t

/-- `JoinOrderOptimizer::SolveJoinOrder`: try the exact enumeration; on its
early-termination signal fall back to the greedy algorithm. -/
def solveJoinOrder (st : OptState) : Option OptState :=
  match solveJoinOrderExactly st with
  | none => none
  | some (true, st') => some st'
  | some (false, st') => solveJoinOrderApproximately st'

/-- `JoinOrderOptimizer::GenerateCrossProducts`: add cross-product edges in
both directions between every pair of distinct base relations. -/
def generateCrossProducts (st : OptState) : OptState :=
  let edges := (List.range st.relationCount).foldl (fun edges i =>
    (List.range st.relationCount).foldl (fun edges j =>
      if i ≠ j then
        let edges := createEdge edges [i] [j] none
        createEdge edges [j] [i] none
      else edges) edges) st.edges
  { st with edges := edges }

/-! ## Plan navigation

The C++ rewrite machinery aliases operators through raw pointers (the
`filter_operators` list, `Relation::op` / `Relation::parent`).  The embedding
replaces pointers by paths (lists of child indexes) into the plan tree. -/

/-- The ordered children of an operator. -/
def LOp.childList : LOp → List LOp
  | .filter _ c => [c]
  | .join _ _ _ l r => [l, r]
  | .crossProduct l r => [l, r]
  | .get _ _ => []
  | .subqueryOp _ c => [c]
  | .tableFunction _ _ => []
  | .aggregate c => [c]
  | .setOp _ l r => [l, r]
  | .projection c => [c]

/-- The subtree at a path of child indexes. -/
def getAtPath (op : LOp) : List Nat → Option LOp
  | [] => some op
  | i :: rest =>
    match op.childList.get? i with
    | some c => getAtPath c rest
    | none => none

/-- Modelled from the spec (§3): `LogicalOperator::EstimateCardinality`, the
cardinality estimate queried from the operator that produced a base
relation. -/
def LOp.estimateCardinality : LOp → Nat
  | .get _ c => c
  | .tableFunction _ c => c
  | .filter _ child => child.estimateCardinality
  | .projection c => c.estimateCardinality
  | .subqueryOp _ c => c.estimateCardinality
  | .aggregate c => c.estimateCardinality
  | .join _ _ _ l r => l.estimateCardinality * r.estimateCardinality
  | .crossProduct l r => l.estimateCardinality * r.estimateCardinality
  | .setOp _ l r => l.estimateCardinality + r.estimateCardinality

/-! ## Relation discovery (`ExtractJoinRelations`) and `Optimize` -/

/-- The relation-discovery state: the paths of the registered base relations
(in registration order, so the path at position `r` belongs to relation id
`r`) and the table-index → relation-id mapping.  New mapping entries are
prepended so that lookup sees the latest assignment, like the C++
`operator[]`. -/
structure ExtractAcc where
  relations : List (List Nat)
  relationMapping : List (Nat × Nat)
  deriving Repr


/-- The second pass of `Optimize` (lines 781-784): `ExtractFilters` over the
collected `filter_operators` — re-walking the reorderable region in the same
pre-order, moving the raw expressions of chain filters and inner joins out
into the global `filters` list. -/
def extractFiltersWalk : LOp → LOp × List Expr
  | .filter exprs child =>
    let (child', fs) := extractFiltersWalk child
    (.filter [] child', exprs ++ fs)
  | .projection child =>
    let (child', fs) := extractFiltersWalk child
    (.projection child', fs)
  | .join jt conds exprs l r =>
    if jt = .inner then
      let (l', fl) := extractFiltersWalk l
      let (r', fr) := extractFiltersWalk r
      (.join jt conds [] l' r', exprs ++ fl ++ fr)
    else (.join jt conds exprs l r, [])
  | .crossProduct l r =>
    let (l', fl) := extractFiltersWalk l
    let (r', fr) := extractFiltersWalk r
    (.crossProduct l' r', fl ++ fr)
  | op => (op, [])

/-- The residual pushdown at the end of each `GenerateJoins` step (lines
677-717): push every still-unconsumed filter that is a subset of the current
result relation — comparisons go into a join's raw expression list (directly
or under one filter), everything else into a filter node. -/
def pushdownFilters (filterInfos : List FilterInfo) (resultRelation : RSet)
    (resultOp : LOp) (filters : List (Option Expr)) :
    LOp × List (Option Expr) :=
  filterInfos.foldl step (resultOp, filters)
where
  step (acc : LOp × List (Option Expr)) (info : FilterInfo) :
      LOp × List (Option Expr) :=
    let (op, filters) := acc
    match filters.getD info.filterIndex none with
    | some filter =>
      if info.set.length > 0 ∧ rsIsSubset resultRelation info.set then
        let filters' := filters.set info.filterIndex none
        if filter.isComparison then
          match op with
          | .join jt conds exprs l r =>
            (.join jt conds (exprs ++ [filter]) l r, filters')
          | .filter fexprs child =>
            match child with
            | .join jt conds exprs l r =>
              (.filter fexprs (.join jt conds (exprs ++ [filter]) l r), filters')
            | c => (.filter (fexprs ++ [filter]) c, filters')
          | other => (pushFilter other filter, filters')
        else (pushFilter op filter, filters')
      else (op, filters)
    | none => (op, filters)

/-- The per-filter condition construction of `GenerateJoins` (lines 652-664):
orientation is decided by whether the left child's relation set is a superset
of the filter's left operand set (`RelationSet::IsSubset(left, f->left_set)`);
when inverted, the operand sides swap and the comparator is flipped. -/
def buildCondFromInfo (leftSet : RSet) (f : FilterInfo) (c : CmpOp)
    (cl cr : Expr) : JoinCondition :=
  let invert := !(rsIsSubset leftSet (f.leftSet.getD []))
  if invert then ⟨cr, cl, c.flip⟩ else ⟨cl, cr, c⟩

/-- `JoinOrderOptimizer::GenerateJoins`: post-order construction of the new
join region from the chosen `JoinNode` tree.  Leaves take the extracted
relation operator; internal nodes become cross products (no filters) or inner
joins whose conditions are moved out of the global `filters` list and
oriented by the subset test on the recursively built children.  Unreachable
assertion-failure branches (a missing filter or a non-comparison condition)
skip the condition. -/
def generateJoins (extracted : List LOp) (filterInfos : List FilterInfo) :
    JoinNode → List (Option Expr) → (RSet × LOp) × List (Option Expr)
  | .node _ info l r _ _, filters =>
    let ((leftSet, leftOp), filters1) := generateJoins extracted filterInfos l filters
    let ((rightSet, rightOp), filters2) := generateJoins extracted filterInfos r filters1
    let resultRelation := rsUnion leftSet rightSet
    let (resultOp, filters3) :=
      if info.filters.length = 0 then
        ((.crossProduct leftOp rightOp : LOp), filters2)
      else
        let (conds, filters3) := info.filters.foldl (fun (acc : List JoinCondition × List (Option Expr)) f =>
          let (conds, fl) := acc
          match fl.getD f.filterIndex none with
          | some (.cmp c cl cr) =>
            let fl' := fl.set f.filterIndex none
            (conds ++ [buildCondFromInfo leftSet f c cl cr], fl')
          | _ => (conds, fl)) ([], filters2)
        ((.join .inner conds [] leftOp rightOp : LOp), filters3)
    let (resultOp, filters4) :=
      pushdownFilters filterInfos resultRelation resultOp filters3
    ((resultRelation, resultOp), filters4)
  | .leaf s _, filters =>
    let resultOp := extracted.getD (s.headD 0) (.get 0 0)
    let (resultOp, filters') := pushdownFilters filterInfos s resultOp filters
    ((s, resultOp), filters')

/-- The restitch descent of `RewritePlan` (lines 747-756): walk from the plan
root through single-child operators and replace the first join or cross
product found by the new join region. -/
def replaceFirstJoin (plan newRegion : LOp) : LOp :=
  match plan with
  | .join _ _ _ _ _ => newRegion
  | .crossProduct _ _ => newRegion
  | .filter exprs child => .filter exprs (replaceFirstJoin child newRegion)
  | .projection child => .projection (replaceFirstJoin child newRegion)
  | .subqueryOp t child => .subqueryOp t (replaceFirstJoin child newRegion)
  | .aggregate child => .aggregate (replaceFirstJoin child newRegion)
  | op => op

/-- The final pushdown of `RewritePlan` (lines 733-739): wrap every
still-unconsumed filter, in index order, as a filter on top of the new join
region; afterwards every slot of `filters` is empty. -/
def finalPushdown (op : LOp) (filters : List (Option Expr)) :
    LOp × List (Option Expr) :=
  (filters.foldl (fun op f =>
      match f with
      | some e => pushFilter op e
      | none => op) op,
    filters.map (fun _ => none))

/-- `JoinOrderOptimizer::RewritePlan`: extract the relation sub-plans,
generate the new join region from the chosen `JoinNode`, perform the final
pushdown, and restitch — returning the region directly when the original
root is itself a join/cross product (more than one child), otherwise
replacing the topmost join and running `ResolveJoinConditions` on the
result. -/
def rewritePlan (relations : List (List Nat)) (filterInfos : List FilterInfo)
    (plan : LOp) (node : JoinNode) (filters : List (Option Expr)) :
    LOp × List (Option Expr) :=
  let rootIsJoin := plan.childList.length > 1
  let extracted := relations.map (fun p => (getAtPath plan p).getD (.get 0 0))
  let ((_, joinTree), filters1) := generateJoins extracted filterInfos node filters
  let (joinTree, filters2) := finalPushdown joinTree filters1
  if rootIsJoin then (joinTree, filters2)
  else (resolveJoinConditions (replaceFirstJoin plan joinTree), filters2)

/-- The call tag merging the mutually recursive `Optimize` /
`ExtractJoinRelations` pair into one fuel-structural function (so that
concrete runs reduce definitionally).  `opt` is an `Optimize` invocation on a
fresh optimizer; `ext` is an `ExtractJoinRelations` step, where `topPath` is
the path of the chain top that a discovered relation registers and `curPath`
the path of the operator currently looked at. -/
inductive PipeCall where
  | opt (plan : LOp)
  | ext (acc : ExtractAcc) (input : LOp) (topPath curPath : List Nat)

/-- The result of a pipeline step: the C++ boolean return of
`ExtractJoinRelations` (always `true` for an `opt` call), the rewritten
operator, and the relation-discovery state. -/
structure PipeResult where
  ok : Bool
  plan : LOp
  acc : ExtractAcc

/-- `JoinOrderOptimizer::Optimize` and
`JoinOrderOptimizer::ExtractJoinRelations`, merged over the `PipeCall` tag.
Every recursive call (descending one operator, or entering a fresh nested
optimizer) consumes one unit of fuel; the C++ recursion depth is bounded by
twice the plan height, so any larger fuel gives the faithful semantics.

`ext` walks the plan: single-child operators descend (filters are collected
by the second pass `extractFiltersWalk`, which re-walks the region in the
same pre-order); aggregates and set operations optimize their children with
fresh optimizers and stop; non-inner joins optimize their children, register
one opaque relation for all the table indexes below, and stop; inner joins
and cross products recurse into both children; scans, subqueries and table
functions register base relations.

`opt` runs the whole optimization: relation discovery, filter extraction,
edge building, memo initialization from the relation cardinality estimates,
`SolveJoinOrder`, the `GenerateCrossProducts` retry when the final plan is
missing, and `RewritePlan`. -/
def pipelineRun : Nat → PipeCall → PipeResult
  | 0, .opt plan => ⟨true, plan, ⟨[], []⟩⟩
  | 0, .ext acc input _ _ => ⟨false, input, acc⟩
  | fuel + 1, .ext acc input topPath curPath =>
    match input with
    | .filter exprs child =>
      let r := pipelineRun fuel (.ext acc child topPath (curPath ++ [0]))
      ⟨r.ok, .filter exprs r.plan, r.acc⟩
    | .projection child =>
      let r := pipelineRun fuel (.ext acc child topPath (curPath ++ [0]))
      ⟨r.ok, .projection r.plan, r.acc⟩
    | .aggregate child =>
      ⟨false, .aggregate (pipelineRun fuel (.opt child)).plan, acc⟩
    | .setOp k l r =>
      ⟨false,
        .setOp k (pipelineRun fuel (.opt l)).plan (pipelineRun fuel (.opt r)).plan,
        acc⟩
    | .subqueryOp t child =>
      let child' := (pipelineRun fuel (.opt child)).plan
      ⟨true, .subqueryOp t child',
        { relations := acc.relations ++ [topPath],
          relationMapping := (t, acc.relations.length) :: acc.relationMapping }⟩
    | .join jt conds exprs l r =>
      if jt ≠ .inner then
        let l' := (pipelineRun fuel (.opt l)).plan
        let r' := (pipelineRun fuel (.opt r)).plan
        let joinOp : LOp := .join jt conds exprs l' r'
        let bindings := getTableReferencesOp joinOp []
        ⟨true, joinOp,
          { relations := acc.relations ++ [topPath],
            relationMapping :=
              bindings.map (fun b => (b, acc.relations.length)) ++
                acc.relationMapping }⟩
      else
        let r1 := pipelineRun fuel (.ext acc l (curPath ++ [0]) (curPath ++ [0]))
        if !r1.ok then ⟨false, .join jt conds exprs r1.plan r, r1.acc⟩
        else
          let r2 := pipelineRun fuel (.ext r1.acc r (curPath ++ [1]) (curPath ++ [1]))
          ⟨r2.ok, .join jt conds exprs r1.plan r2.plan, r2.acc⟩
    | .crossProduct l r =>
      let r1 := pipelineRun fuel (.ext acc l (curPath ++ [0]) (curPath ++ [0]))
      if !r1.ok then ⟨false, .crossProduct r1.plan r, r1.acc⟩
      else
        let r2 := pipelineRun fuel (.ext r1.acc r (curPath ++ [1]) (curPath ++ [1]))
        ⟨r2.ok, .crossProduct r1.plan r2.plan, r2.acc⟩
    | .get t c =>
      ⟨true, .get t c,
        { relations := acc.relations ++ [topPath],
          relationMapping := (t, acc.relations.length) :: acc.relationMapping }⟩
    | .tableFunction t c =>
      ⟨true, .tableFunction t c,
        { relations := acc.relations ++ [topPath],
          relationMapping := (t, acc.relations.length) :: acc.relationMapping }⟩
  | fuel + 1, .opt plan =>
    let r := pipelineRun fuel (.ext ⟨[], []⟩ plan [] [])
    let plan1 := r.plan
    let acc := r.acc
    if !r.ok then ⟨true, resolveJoinConditions plan1, acc⟩
    else if acc.relations.length ≤ 1 then ⟨true, resolveJoinConditions plan1, acc⟩
    else
      let (plan2, filterExprs) := extractFiltersWalk plan1
      let (filterInfos, edges) := buildEdges acc.relationMapping filterExprs
      let n := acc.relations.length
      let plans0 := (List.range n).map (fun i =>
        (([i] : RSet),
          JoinNode.leaf [i]
            (((getAtPath plan2 (acc.relations.getD i [])).getD
              (.get 0 0)).estimateCardinality)))
      let st : OptState := ⟨plans0, 0, edges, n⟩
      match solveJoinOrder st with
      | none => ⟨true, plan2, acc⟩
      | some st1 =>
        let totalRelation : RSet := List.range n
        match st1.plans.lookup totalRelation with
        | some finalNode =>
          ⟨true,
            (rewritePlan acc.relations filterInfos plan2 finalNode
              (filterExprs.map some)).1, acc⟩
        | none =>
          let st2 := generateCrossProducts st1
          match solveJoinOrder st2 with
          | none => ⟨true, plan2, acc⟩
          | some st3 =>
            match st3.plans.lookup totalRelation with
            | some finalNode =>
              ⟨true,
                (rewritePlan acc.relations filterInfos plan2 finalNode
                  (filterExprs.map some)).1, acc⟩
            | none => ⟨true, plan2, acc⟩

/-- `JoinOrderOptimizer::ExtractJoinRelations` (wrapper over the merged
pipeline). -/
def extractJoinRelations (fuel : Nat) (acc : ExtractAcc) (input : LOp)
    (topPath curPath : List Nat) : Bool × LOp × ExtractAcc :=
  let r := pipelineRun fuel (.ext acc input topPath curPath)
  (r.ok, r.plan, r.acc)

/-- `JoinOrderOptimizer::Optimize` (wrapper over the merged pipeline). -/
def optimize (fuel : Nat) (plan : LOp) : LOp :=
  (pipelineRun fuel (.opt plan)).plan

/-! ## The cost model over arbitrary binary join trees

Used to state the enumeration-optimality property: an arbitrary binary join
tree over the base relations, costed exactly as `CreateJoinTree` costs it
(connection looked up in the query graph; cross product when no filter
connects the two sides). -/

/-- An arbitrary binary join tree over base relation ids. -/
inductive JoinTree where
  | leaf (r : Nat)
  | node (left right : JoinTree)
  deriving DecidableEq, Repr

/-- The relation set covered by a binary join tree. -/
def JoinTree.tset : JoinTree → RSet
  | .leaf r => [r]
  | .node l r => rsUnion l.tset r.tset

/-- The cardinality a binary join tree gets under the cost model of
`CreateJoinTree`: leaves use the base-relation cardinalities; an internal
node is a filtered join (max of the child cardinalities) when the query graph
connects its two sides with at least one filter, and a cross product
(product) otherwise. -/
def treeCard (cards : List Nat) (edges : List Edge) : JoinTree → Nat
  | .leaf r => cards.getD r 0
  | .node l r =>
    let cl := treeCard cards edges l
    let cr := treeCard cards edges r
    match getConnection edges l.tset r.tset with
    | some info => if info.filters.length = 0 then cl * cr else max cl cr
    | none => cl * cr

/-- The cost of a binary join tree under the cost model of `CreateJoinTree`:
leaves cost 0; an internal node costs its cardinality plus its children's
costs. -/
def treeCost (cards : List Nat) (edges : List Edge) : JoinTree → Nat
  | .leaf _ => 0
  | .node l r =>
    treeCard cards edges (.node l r) + treeCost cards edges l +
      treeCost cards edges r

/-- Every base relation of `[0, n)` appears exactly once as a leaf of the
tree. -/
def JoinTree.coversOnce (t : JoinTree) (n : Nat) : Bool :=
  decide (t.tset = List.range n) && go t
where
  go : JoinTree → Bool
  | .leaf _ => true
  | .node l r =>
    go l && go r && l.tset.all (fun x => !r.tset.contains x)

/-! ## Concrete instances used to exercise the code -/

/-- Table-index → relation-id mapping of a two-relation region (table index
10 is relation 0, table index 11 is relation 1). -/
def mappingTwo : List (Nat × Nat) := [(10, 0), (11, 1)]

/-- A filter whose left operand contains a correlated column reference
(depth 1) followed by an ordinary depth-0 reference of table 10 — e.g.
`f(outer.y, a.x) = b.z`.  The whole expression is poisoned in the sense of
§4.3. -/
def poisonedFilter : Expr :=
  .cmp .eq (.func2 (.boundColumnRef 99 1) (.boundColumnRef 10 0))
    (.boundColumnRef 11 0)

/-- The chain query graph `0 — 1 — 2`: predicate 0 joins relations 0 and 1,
predicate 1 joins relations 1 and 2 (both directions, as `Optimize` creates
them). -/
def chainFilterAB : FilterInfo :=
  { filterIndex := 0, set := [0, 1], leftSet := some [0], rightSet := some [1] }

/-- The second chain predicate, between relations 1 and 2. -/
def chainFilterBC : FilterInfo :=
  { filterIndex := 1, set := [1, 2], leftSet := some [1], rightSet := some [2] }

/-- The edges of the chain query graph. -/
def chainEdges : List Edge :=
  [⟨[0], [1], [chainFilterAB]⟩, ⟨[1], [0], [chainFilterAB]⟩,
   ⟨[1], [2], [chainFilterBC]⟩, ⟨[2], [1], [chainFilterBC]⟩]

/-- The cardinalities of the chain's base relations: two tiny outer relations
around a large middle one. -/
def chainCards : List Nat := [1, 100, 1]

/-- The optimizer state at the start of `SolveJoinOrder` for the chain:
singleton leaf plans with the chain cardinalities. -/
def chainState : OptState :=
  { plans := [([0], .leaf [0] 1), ([1], .leaf [1] 100), ([2], .leaf [2] 1)],
    pairs := 0, edges := chainEdges, relationCount := 3 }

/-- The binary join tree `(0 × 2) ⋈ 1`: cross-product the two tiny relations
first, then join the big one. -/
def chainAltTree : JoinTree := .node (.node (.leaf 0) (.leaf 2)) (.leaf 1)

/-- A greedy-fallback state over three pairwise-disconnected fragments with
cardinalities 5, 1, 10 (in index order). -/
def greedyState510 : OptState :=
  { plans := [([0], .leaf [0] 5), ([1], .leaf [1] 1), ([2], .leaf [2] 10)],
    pairs := 0, edges := [], relationCount := 3 }

/-- A greedy-fallback state over three pairwise-disconnected fragments whose
cardinalities strictly decrease in index order (100, 50, 20). -/
def greedyStateDecreasing : OptState :=
  { plans := [([0], .leaf [0] 100), ([1], .leaf [1] 50), ([2], .leaf [2] 20)],
    pairs := 0, edges := [], relationCount := 3 }

/-- A raw join predicate `t10.x = t11.y` carried by a non-inner join. -/
def rawOuterPredicate : Expr :=
  .cmp .eq (.boundColumnRef 10 0) (.boundColumnRef 11 0)

/-- A left outer join between tables 10 and 11 still carrying
`rawOuterPredicate` as a raw expression. -/
def outerJoinWithRaw : LOp :=
  .join .leftOuter [] [rawOuterPredicate] (.get 10 5) (.get 11 5)

/-- A plan whose region root is itself a join/cross product: a cross product
of a base scan and the raw-predicate outer join. -/
def rootJoinPlan : LOp := .crossProduct (.get 1 100) outerJoinWithRaw

/-- The memo entry the exact enumeration computes for the chain's middle
pair `{1, 2}`. -/
def chainNode12 : JoinNode :=
  .node [1, 2] ⟨[chainFilterBC]⟩ (.leaf [1] 100) (.leaf [2] 1) 100 100

/-- The plan the exact enumeration leaves for the full chain `{0, 1, 2}`. -/
def chainFinalNode : JoinNode :=
  .node [0, 1, 2] ⟨[chainFilterAB]⟩ chainNode12 (.leaf [0] 1) 100 200

/-- The optimizer state after `SolveJoinOrderExactly` on the chain. -/
def chainFinalState : OptState :=
  { plans := [([0], .leaf [0] 1), ([1], .leaf [1] 100), ([2], .leaf [2] 1),
      ([1, 2], chainNode12),
      ([0, 1], .node [0, 1] ⟨[chainFilterAB]⟩ (.leaf [1] 100) (.leaf [0] 1)
        100 100),
      ([0, 1, 2], chainFinalNode)],
    pairs := 6, edges := chainEdges, relationCount := 3 }

/-! ## Specification devices for the enumeration-optimality proof -/

/-- Strictly sorted relation-id lists (the canonical interned form). -/
def rsSorted (l : RSet) : Prop := List.Chain' (· < ·) l

instance (l : RSet) : Decidable (rsSorted l) :=
  inferInstanceAs (Decidable (List.Chain' (· < ·) l))

/-- The maximum base-relation cardinality over a set (with the given
per-relation cardinalities); under the foreign-key cost model this is the
cardinality every filtered join over the set gets. -/
def maxCard (cards : List Nat) (s : RSet) : Nat :=
  s.foldl (fun a j => max a (cards.getD j 0)) 0

/-- One growth step of the enumeration: extend the current subgraph `p.1`
(with exclusion set `p.2`) by the minimum element of the target of an edge
whose source lies inside the subgraph and whose target avoids the exclusion
set — exactly the step both `EnumerateCSGRecursive` and
`EnumerateCmpRecursive` perform. -/
def growStep (edges : List Edge) (p q : RSet × RSet) : Prop :=
  ∃ e ∈ edges, ∃ n,
    rsIsSubset p.1 e.efrom = true ∧
    e.eto.all (fun x => !p.2.contains x) = true ∧
    e.eto.head? = some n ∧
    n ∉ p.1 ∧
    q = (rsUnion p.1 [n], rsInsert n p.2)

/-- Reachability by growth steps. -/
def growable (edges : List Edge) : RSet × RSet → RSet × RSet → Prop :=
  Relation.ReflTransGen (growStep edges)

/-- A binary join tree is cross-product free for a query graph when every
internal node joins two sides that the graph connects. -/
def cpFree (edges : List Edge) : JoinTree → Bool
  | .leaf _ => true
  | .node l r =>
    (getConnection edges l.tset r.tset).isSome && cpFree edges l && cpFree edges r

/-- The memo holds a plan for the set with cost at most `c`. -/
def goodFor (st : OptState) (s : RSet) (c : Nat) : Prop :=
  ∃ nd, st.plans.lookup s = some nd ∧ nd.cost ≤ c

/-- The memo only ever improves: every entry persists with at most its
cost. -/
def plansMono (st st' : OptState) : Prop :=
  ∀ s nd, st.plans.lookup s = some nd →
    ∃ nd', st'.plans.lookup s = some nd' ∧ nd'.cost ≤ nd.cost

/-- Every memo entry carries the max-model cardinality of its set. -/
def cardInv (cards : List Nat) (st : OptState) : Prop :=
  ∀ s nd, st.plans.lookup s = some nd → nd.cardinality = maxCard cards s

/-- Query-graph well-formedness for the exact enumeration: every edge group
carries at least one filter (as every edge built by `Optimize` does), has a
sorted nonempty target, and has its reverse orientation present (as the
callers of `CreateEdge` ensure). -/
def edgesWF (edges : List Edge) : Prop :=
  ∀ e ∈ edges, e.filters ≠ [] ∧ e.eto ≠ [] ∧ rsSorted e.eto ∧
    ∃ e' ∈ edges, e'.efrom = e.eto ∧ e'.eto = e.efrom

instance (edges : List Edge) : Decidable (edgesWF edges) :=
  inferInstanceAs (Decidable (∀ e ∈ edges,
    e.filters ≠ [] ∧ e.eto ≠ [] ∧ rsSorted e.eto ∧
      ∃ e' ∈ edges, e'.efrom = e.eto ∧ e'.eto = e.efrom))

/-- Two relation sets with the same members. -/
def rsEquiv (a b : RSet) : Prop := ∀ x, x ∈ a ↔ x ∈ b

/-- States evolve: the query graph and relation count are untouched, every
memo entry persists with at most its cost, and the cardinality invariant is
preserved. -/
def evolves (st st' : OptState) : Prop :=
  st'.edges = st.edges ∧ st'.relationCount = st.relationCount ∧
  plansMono st st' ∧
  ∀ cards, edgesWF st.edges → cardInv cards st → cardInv cards st'

/-- The canonical exclusion set of `EnumerateCSGRecursive` during the
iteration that starts at relation `i`, at the subgraph `a`: everything below
`i` plus the subgraph without `i` itself. -/
def canonX (i : Nat) (a : RSet) : RSet :=
  rsOfList (List.range i ++ a.filter (fun x => x != i))

/-- The reachability data one spine block needs: the accumulated set `a` and
the block `b` are connected in the query graph, the block can be grown by the
complement enumeration started from a neighbor of `a` under `a`'s `EmitCSG`
exclusion set, and the accumulated set can be grown to `a ∪ b` by the subgraph
enumeration under the canonical exclusion set. -/
def blockOK (edges : List Edge) (i : Nat) (a b : RSet) : Prop :=
  (getConnection edges a b).isSome = true ∧
  (∃ n0,
    (∃ e ∈ edges, rsIsSubset a e.efrom = true ∧
      e.eto.all (fun x => !(csgExcl a).contains x) = true ∧
      e.eto.head? = some n0) ∧
    (b = [n0] ∨
      ∃ xd, Relation.TransGen (growStep edges) ([n0], csgExcl a) (b, xd))) ∧
  (∃ xe, growable edges (a, canonX i a) (rsUnion a b, xe)) ∧
  (∃ y ∈ b, y ∉ a)

/-- A chain of spine blocks, each reachable from the set accumulated so
far. -/
def spineBlocksOK (edges : List Edge) (i : Nat) : RSet → List (RSet × Nat) → Prop
  | _, [] => True
  | a, (b, _) :: rest =>
    blockOK edges i a b ∧ spineBlocksOK edges i (rsUnion a b) rest

/-- The set accumulated after consuming all spine blocks. -/
def spineEnd : RSet → List (RSet × Nat) → RSet
  | a, [] => a
  | a, (b, _) :: rest => spineEnd (rsUnion a b) rest

/-- The cost accumulated after consuming all spine blocks, under the
max-cardinality cost model of filtered joins. -/
def spineCost (cards : List Nat) : RSet → Nat → List (RSet × Nat) → Nat
  | _, c, [] => c
  | a, c, (b, cb) :: rest =>
    spineCost cards (rsUnion a b) (maxCard cards (rsUnion a b) + c + cb) rest

/-- The tree `t` can be grown element-by-element from any start set that
contains one of its members and avoids the rest: the key reachability
property of connected (cross-product-free) join trees. -/
def growsOK (edges : List Edge) (t : JoinTree) : Prop :=
  ∀ (d : Nat) (s x : RSet), d ∈ t.tset → d ∈ s →
    (∀ z ∈ t.tset, z ≠ d → z ∉ x ∧ z ∉ s) →
    ∃ E xe, growable edges (s, x) (E, xe) ∧
      (∀ z, z ∈ E ↔ z ∈ s ∨ z ∈ t.tset) ∧
      (∀ z, z ∈ xe ↔ z ∈ x ∨ (z ∈ t.tset ∧ z ≠ d))

/-- Sibling subtrees of a binary join tree are disjoint (the walker of
`JoinTree.coversOnce`, as a standalone predicate). -/
def treeDisjoint : JoinTree → Bool
  | .leaf _ => true
  | .node l r =>
    treeDisjoint l && treeDisjoint r && l.tset.all (fun x => !r.tset.contains x)

/-! # Basic lemmas about the set representation -/

theorem mem_rsInsert (a x : Nat) (l : RSet) :
    a ∈ rsInsert x l ↔ a = x ∨ a ∈ l := by
  induction l with
  | nil => simp [rsInsert]
  | cons y ys ih =>
    simp only [rsInsert]
    split_ifs with h1 h2
    · simp [List.mem_cons]
    · subst h2
      simp [List.mem_cons]
    · simp [List.mem_cons, ih]
      tauto

theorem mem_rsUnion (a : Nat) (l1 l2 : RSet) :
    a ∈ rsUnion l1 l2 ↔ a ∈ l1 ∨ a ∈ l2 := by
  induction l1 with
  | nil => simp [rsUnion]
  | cons x xs ih =>
    simp only [rsUnion, List.foldr_cons, List.mem_cons]
    rw [mem_rsInsert]
    unfold rsUnion at ih
    rw [ih]
    tauto

theorem rsIsSubset_iff (sup sub : RSet) :
    rsIsSubset sup sub = true ↔ ∀ a ∈ sub, a ∈ sup := by
  simp [rsIsSubset, List.all_eq_true, List.elem_iff]

theorem contains_iff (l : List Nat) (a : Nat) :
    l.contains a = true ↔ a ∈ l := by
  simp [List.elem_iff]

/-! # Claim theorems

Each claim of the specification audit gets exactly one theorem below (plus a
witness when the theorem carries hypotheses).  Helper lemmas carry the weight
and are shared. -/

/-- C3 (code bug): the filter `f(outer.y, a.x) = b.z` is poisoned — it
contains a correlated (depth > 0) column reference — yet the edge-building
pass of `Optimize` creates query-graph edges `{0} ↔ {1}` for it, because
`ExtractBindings` keeps visiting siblings after clearing the bindings and its
`false` result is ignored at the call sites.  The specification (§4.3) says
such a filter may never serve as a join predicate. -/
theorem claim3_poisoned_filter_creates_edges :
    Expr.poisoned poisonedFilter = true ∧
    (extractBindings mappingTwo poisonedFilter []).1 = false ∧
    (buildEdges mappingTwo [poisonedFilter]).2 =
      [⟨[0], [1], [⟨0, [0, 1], some [0], some [1]⟩]⟩,
       ⟨[1], [0], [⟨0, [0, 1], some [0], some [1]⟩]⟩] :=
  ⟨rfl, rfl, rfl⟩

/-- C4 (code bug): over three disconnected fragments with cardinalities
`5, 1, 10`, the "two smallest" scan of `SolveJoinOrderApproximately` selects
the fragments with cardinalities 1 and 10 — not the two smallest (1 and 5) —
because replacing slot 0 never demotes its previous occupant to slot 1; the
greedy pass then emits the forced cross product between `{1}` and `{2}` and
never between `{1}` and `{0}`. -/
theorem claim4_pick_not_two_smallest :
    pickSmallestTwo greedyState510.plans [[0], [1], [2]] =
      (some (1, .leaf [1] 1), some (2, .leaf [2] 10)) ∧
    (greedyState510.plans.lookup [0]).map JoinNode.cardinality = some 5 ∧
    5 < 10 ∧
    (solveJoinOrderApproximately greedyState510).map
      (fun st => ((st.plans.lookup [1, 2]).isSome, st.plans.lookup [0, 1])) =
      some (true, none) :=
  ⟨rfl, rfl, by decide, rfl⟩

/-- C8 (code bug): on three disconnected fragments whose cardinalities
strictly decrease in scan order (100, 50, 20), the second slot of the "two
smallest" scan is never filled, so
`assert(smallest_plans[0] && smallest_plans[1])` fails (and release builds
dereference null): the greedy fallback dies instead of completing a plan for
the union of all base relations. -/
theorem claim8_greedy_fallback_dies :
    (pickSmallestTwo greedyStateDecreasing.plans [[0], [1], [2]]).2 = none ∧
    solveJoinOrderApproximately greedyStateDecreasing = none :=
  ⟨rfl, rfl⟩

/-- C1 (counterexample): on the chain `0 — 1 — 2` with cardinalities
`1, 100, 1`, the exact enumeration finishes well under the pair budget
(6 pairs) and stores a plan of cost 200 for the full set, yet the binary join
tree `(0 × 2) ⋈ 1` over the same relations costs 101 under the cost model of
`CreateJoinTree`: the claim's quantification over every binary join tree
fails, because DPccp never considers cross-product subtrees. -/
theorem claim1_counterexample_cross_product_tree :
    (solveJoinOrderExactly chainState).map
      (fun p => (p.1, p.2.pairs, (p.2.plans.lookup [0, 1, 2]).map JoinNode.cost)) =
      some (true, 6, some 200) ∧
    chainAltTree.coversOnce 3 = true ∧
    treeCost chainCards chainEdges chainAltTree = 101 ∧
    101 < 200 ∧ 6 < 10000 :=
  ⟨rfl, rfl, rfl, by decide, by decide⟩

/-- C2 (counterexample): when the region root is itself a join/cross product,
`RewritePlan` returns the rebuilt region directly and `Optimize` never runs
`ResolveJoinConditions` on it, so a non-inner join registered as an opaque
base relation keeps its raw predicate expression in the returned plan. -/
theorem claim2_counterexample_root_join_path :
    (optimize 10 rootJoinPlan).nonInnerJoinsClean = false ∧
    optimize 10 rootJoinPlan =
      .crossProduct (.get 1 100)
        (.join .leftOuter [] [rawOuterPredicate] (.get 10 5) (.get 11 5)) :=
  ⟨rfl, rfl⟩

/-! ## The join-condition resolver empties every join's raw expression list -/

theorem pushFilter_joinsClean (op : LOp) (e : Expr) :
    (pushFilter op e).joinsClean = op.joinsClean := by
  cases op <;> simp [pushFilter, LOp.joinsClean]

theorem foldl_pushFilter_joinsClean (es : List Expr) (op : LOp) :
    (es.foldl pushFilter op).joinsClean = op.joinsClean := by
  induction es generalizing op with
  | nil => rfl
  | cons e es ih => rw [List.foldl_cons, ih, pushFilter_joinsClean]

theorem createJoinCondition_children (lb rb : RSet) (st : CJState) (e : Expr) :
    (createJoinCondition lb rb st e).lchild.joinsClean = st.lchild.joinsClean ∧
    (createJoinCondition lb rb st e).rchild.joinsClean = st.rchild.joinsClean := by
  cases e with
  | opNot child =>
    cases child <;>
      (simp only [createJoinCondition]; split_ifs <;> simp [pushFilter_joinsClean])
  | _ =>
    simp only [createJoinCondition]
    split_ifs <;> simp [pushFilter_joinsClean]

theorem foldl_createJoinCondition_children (lb rb : RSet) (es : List Expr)
    (st : CJState) :
    ((es.foldl (createJoinCondition lb rb) st).lchild.joinsClean =
      st.lchild.joinsClean) ∧
    ((es.foldl (createJoinCondition lb rb) st).rchild.joinsClean =
      st.rchild.joinsClean) := by
  induction es generalizing st with
  | nil => exact ⟨rfl, rfl⟩
  | cons e es ih =>
    rw [List.foldl_cons]
    have h1 := createJoinCondition_children lb rb st e
    have h2 := ih (createJoinCondition lb rb st e)
    exact ⟨h2.1.trans h1.1, h2.2.trans h1.2⟩

theorem resolveJoinConditions_clean (op : LOp) :
    (resolveJoinConditions op).joinsClean = true := by
  induction op with
  | filter exprs child ih =>
    simpa [resolveJoinConditions, LOp.joinsClean] using ih
  | join jt conds exprs l r ihl ihr =>
    simp only [resolveJoinConditions]
    split_ifs with h
    · rw [foldl_pushFilter_joinsClean]
      have hc := foldl_createJoinCondition_children
        (getTableReferencesOp (resolveJoinConditions l) [])
        (getTableReferencesOp (resolveJoinConditions r) [])
        exprs ⟨resolveJoinConditions l, resolveJoinConditions r, conds, []⟩
      simp only [LOp.joinsClean, List.isEmpty_nil, Bool.true_and, Bool.and_eq_true]
      exact ⟨hc.1.trans ihl, hc.2.trans ihr⟩
    · have : exprs = [] := List.length_eq_zero.mp (by omega)
      subst this
      simp [LOp.joinsClean, ihl, ihr]
  | crossProduct l r ihl ihr =>
    simp [resolveJoinConditions, LOp.joinsClean, ihl, ihr]
  | get t c => rfl
  | subqueryOp t child ih =>
    simpa [resolveJoinConditions, LOp.joinsClean] using ih
  | tableFunction t c => rfl
  | aggregate child ih =>
    simpa [resolveJoinConditions, LOp.joinsClean] using ih
  | setOp k l r ihl ihr =>
    simp [resolveJoinConditions, LOp.joinsClean, ihl, ihr]
  | projection child ih =>
    simpa [resolveJoinConditions, LOp.joinsClean] using ih

theorem joinsClean_imp_nonInner (op : LOp) (h : op.joinsClean = true) :
    op.nonInnerJoinsClean = true := by
  induction op <;> simp_all [LOp.joinsClean, LOp.nonInnerJoinsClean]

/-- C10: `ResolveJoinConditions` processes every operator of join type —
inner joins (including ones whose raw expression lists received comparison
filters from `GenerateJoins`' residual pushdown) as well as non-inner joins —
and after it visits a join node, that node's raw expression list is empty:
every join operator in its output carries no raw expressions. -/
theorem claim10_resolver_clears_every_join (op : LOp) :
    (resolveJoinConditions op).joinsClean = true :=
  resolveJoinConditions_clean op

/-- C2 (amended theorem): on every return path of `Optimize` that runs
`JoinConditionResolver` — i.e. every path except the one where the region
root is itself a join and `RewritePlan` returns the rebuilt region directly —
no non-inner join retains raw predicate expressions: the resolver's output
always satisfies the invariant. -/
theorem claim2_resolver_output_nonInner_clean (op : LOp) :
    (resolveJoinConditions op).nonInnerJoinsClean = true :=
  joinsClean_imp_nonInner _ (resolveJoinConditions_clean op)

/-! ## The residual invariant of `RewritePlan` -/

theorem all_isNone_map_none (l : List (Option Expr)) :
    (l.map (fun _ => (none : Option Expr))).all (fun f => f.isNone) = true := by
  induction l <;> simp_all

/-- C9: after `RewritePlan` returns, `filters[i]` is empty (moved-from) for
every index `i`: each filter was consumed as a join condition or pushed
residual during `GenerateJoins`, or by the final pushdown that wraps all
still-unconsumed filters on top of the new join region. -/
theorem claim9_residual_invariant (relations : List (List Nat))
    (filterInfos : List FilterInfo) (plan : LOp) (node : JoinNode)
    (filters : List (Option Expr)) :
    ((rewritePlan relations filterInfos plan node filters).2).all
      (fun f => f.isNone) = true := by
  cases hG : generateJoins (relations.map fun p => (getAtPath plan p).getD (.get 0 0))
      filterInfos node filters with
  | mk a f1 =>
    cases a with
    | mk s jt =>
      simp only [rewritePlan, finalPushdown, hG]
      split <;> exact all_isNone_map_none f1

/-! ## The cost/cardinality contract of `CreateJoinTree` -/

/-- C5: `CreateJoinTree` returns a node whose right child is the input with
the smaller cardinality (the children are swapped exactly when
`left.cardinality < right.cardinality`), whose cardinality is the product of
the child cardinalities when `info` carries no filters and their maximum
otherwise, and whose cost is that cardinality plus the costs of both
children. -/
theorem claim5_createJoinTree_contract (set : RSet) (info : NeighborInfo)
    (left right : JoinNode) :
    createJoinTree set info left right =
      .node set info
        (if left.cardinality < right.cardinality then right else left)
        (if left.cardinality < right.cardinality then left else right)
        (if info.filters.length = 0 then left.cardinality * right.cardinality
         else max left.cardinality right.cardinality)
        ((if info.filters.length = 0 then left.cardinality * right.cardinality
          else max left.cardinality right.cardinality) +
          left.cost + right.cost) := by
  by_cases h : left.cardinality < right.cardinality <;>
    by_cases hf : info.filters.length = 0 <;>
      simp [createJoinTree, createJoinTreeOrdered, h, hf, Nat.mul_comm,
        Nat.max_comm] <;>
      omega

/-! ## The pair budget and the fallback trigger -/

theorem emitPair_pairs (st : OptState) (l r : RSet) (info : NeighborInfo) :
    (emitPair st l r info).2.pairs = st.pairs := by
  unfold emitPair
  split
  · dsimp only
    split
    · split <;> rfl
    · rfl
  · rfl

/-- C6: every call to `TryEmitPair` increments the `pairs` counter; once the
counter has reached the 10 000 threshold, every further attempt returns
`false` without emitting a pair into the memo; and `SolveJoinOrder` calls
`SolveJoinOrderApproximately` exactly when `SolveJoinOrderExactly` returns
`false`. -/
theorem claim6_pair_budget (st : OptState) (l r : RSet) (info : NeighborInfo) :
    (tryEmitPair st l r info).2.pairs = st.pairs + 1 ∧
    (10000 ≤ st.pairs →
      (tryEmitPair st l r info).1 = false ∧
      (tryEmitPair st l r info).2.plans = st.plans) ∧
    (∀ (b : Bool) (st' : OptState),
      solveJoinOrderExactly st = some (b, st') →
      solveJoinOrder st =
        if b then some st' else solveJoinOrderApproximately st') := by
  refine ⟨?_, ?_, ?_⟩
  · simp only [tryEmitPair]
    split_ifs
    · rfl
    · exact emitPair_pairs _ l r info
  · intro h
    have h1 : 10000 ≤ st.pairs + 1 := by omega
    simp [tryEmitPair, h1]
  · intro b st' h
    simp only [solveJoinOrder, h]
    cases b <;> rfl

/-- Witness for C6: with the counter at 10 000 the next attempt returns
`false`, leaves the memo unchanged and still increments the counter; and on a
trivial state where the exact solve returns `true`, `SolveJoinOrder` does not
call the fallback. -/
theorem claim6_pair_budget_witness :
    (tryEmitPair ⟨[], 10000, [], 0⟩ [0] [1] ⟨[]⟩).1 = false ∧
    (tryEmitPair ⟨[], 10000, [], 0⟩ [0] [1] ⟨[]⟩).2.pairs = 10001 ∧
    (tryEmitPair ⟨[], 10000, [], 0⟩ [0] [1] ⟨[]⟩).2.plans = [] ∧
    solveJoinOrder ⟨[], 0, [], 0⟩ = some ⟨[], 0, [], 0⟩ := by
  have h := claim6_pair_budget ⟨[], 10000, [], 0⟩ [0] [1] ⟨[]⟩
  have h0 := (claim6_pair_budget ⟨[], 0, [], 0⟩ [0] [1] ⟨[]⟩).2.2 true
    ⟨[], 0, [], 0⟩ rfl
  exact ⟨(h.2.1 (by decide)).1, h.1, (h.2.1 (by decide)).2, h0⟩

/-! ## Orientation of inner-join conditions -/

theorem combineJoinSide_not_both (a b : JoinSide)
    (h : combineJoinSide a b = .left ∨ combineJoinSide a b = .none) :
    (a = .left ∨ a = .none) ∧ (b = .left ∨ b = .none) := by
  cases a <;> cases b <;> simp_all [combineJoinSide]

theorem combineJoinSide_not_both_right (a b : JoinSide)
    (h : combineJoinSide a b = .right ∨ combineJoinSide a b = .none) :
    (a = .right ∨ a = .none) ∧ (b = .right ∨ b = .none) := by
  cases a <;> cases b <;> simp_all [combineJoinSide]

theorem combineJoinSide_both (a b : JoinSide)
    (h : combineJoinSide a b = .both) :
    a = .both ∨ b = .both ∨ (a = .left ∧ b = .right) ∨
      (a = .right ∧ b = .left) := by
  cases a <;> cases b <;> simp_all [combineJoinSide]

theorem rsIsSubset_rsUnion (sup a b : RSet) (ha : rsIsSubset sup a = true)
    (hb : rsIsSubset sup b = true) :
    rsIsSubset sup (rsUnion a b) = true := by
  rw [rsIsSubset_iff] at *
  intro x hx
  rcases (mem_rsUnion x a b).mp hx with h | h
  · exact ha x h
  · exact hb x h

theorem getJoinSide_left_refs (lb rb : RSet) (e : Expr)
    (h : getJoinSide lb rb e = .left ∨ getJoinSide lb rb e = .none) :
    rsIsSubset lb e.tableRefs = true := by
  induction e with
  | boundColumnRef t d =>
    by_cases hd : d > 0
    · simp [getJoinSide, hd] at h
    · by_cases hc : t ∈ lb
      · simp [Expr.tableRefs, hd, rsIsSubset, List.elem_iff, hc]
      · simp [getJoinSide, hd, hc] at h
  | boundRef => simp [Expr.tableRefs, rsIsSubset]
  | subquery c => simp [getJoinSide] at h
  | cmp c l r ihl ihr =>
    simp only [getJoinSide] at h
    have hc := combineJoinSide_not_both _ _ h
    exact rsIsSubset_rsUnion _ _ _ (ihl hc.2) (ihr hc.1)
  | opNot c ih => exact ih h
  | const => simp [Expr.tableRefs, rsIsSubset]
  | func1 c ih => exact ih h
  | func2 l r ihl ihr =>
    simp only [getJoinSide] at h
    have hc := combineJoinSide_not_both _ _ h
    exact rsIsSubset_rsUnion _ _ _ (ihl hc.2) (ihr hc.1)

theorem getJoinSide_right_refs (lb rb : RSet) (e : Expr)
    (hwf : ∀ x ∈ e.tableRefs, x ∈ lb ∨ x ∈ rb)
    (h : getJoinSide lb rb e = .right ∨ getJoinSide lb rb e = .none) :
    rsIsSubset rb e.tableRefs = true := by
  induction e with
  | boundColumnRef t d =>
    by_cases hd : d > 0
    · simp [getJoinSide, hd] at h
    · have ht := hwf t (by simp [Expr.tableRefs, hd])
      by_cases hc : t ∈ lb
      · simp [getJoinSide, hd, hc] at h
      · have htr : t ∈ rb := by
          rcases ht with h' | h'
          · exact absurd h' hc
          · exact h'
        simp [Expr.tableRefs, hd, rsIsSubset, List.elem_iff, htr]
  | boundRef => simp [Expr.tableRefs, rsIsSubset]
  | subquery c => simp [getJoinSide] at h
  | cmp c l r ihl ihr =>
    simp only [getJoinSide] at h
    have hc := combineJoinSide_not_both_right _ _ h
    refine rsIsSubset_rsUnion _ _ _ (ihl ?_ hc.2) (ihr ?_ hc.1)
    · intro x hx
      exact hwf x (by simp only [Expr.tableRefs]; exact (mem_rsUnion x _ _).mpr (.inl hx))
    · intro x hx
      exact hwf x (by simp only [Expr.tableRefs]; exact (mem_rsUnion x _ _).mpr (.inr hx))
  | opNot c ih => exact ih hwf h
  | const => simp [Expr.tableRefs, rsIsSubset]
  | func1 c ih => exact ih hwf h
  | func2 l r ihl ihr =>
    simp only [getJoinSide] at h
    have hc := combineJoinSide_not_both_right _ _ h
    refine rsIsSubset_rsUnion _ _ _ (ihl ?_ hc.2) (ihr ?_ hc.1)
    · intro x hx
      exact hwf x (by simp only [Expr.tableRefs]; exact (mem_rsUnion x _ _).mpr (.inl hx))
    · intro x hx
      exact hwf x (by simp only [Expr.tableRefs]; exact (mem_rsUnion x _ _).mpr (.inr hx))

/-- C7: in every inner-join condition `(l cmp r)` produced by the optimizer,
the relations referenced by `l` are a subset of the join's left child's
relation set and those referenced by `r` a subset of the right child's, with
operand sides swapped and the comparator flipped when the original expression
was oriented the other way.  Part one covers the conditions `GenerateJoins`
builds from a `FilterInfo` via `buildCondFromInfo` (`ls` / `rs` are the
binding sets of the two comparison operands, `leftSet` / `rightSet` the
relation sets of the recursively built children; the disjunction hypothesis
is the source's assertion before the orientation test).  Part two covers the
conditions `CreateJoinCondition` builds from a raw comparison (`lb` / `rb`
are the table-binding sets of the join's two children; the well-formedness
hypothesis is the source's assertion that every column reference is bound by
one of them). -/
theorem claim7_condition_orientation :
    (∀ (leftSet rightSet ls rs : RSet) (f : FilterInfo) (c : CmpOp)
        (cl cr : Expr),
      f.leftSet = some ls →
      ls ≠ [] →
      (∀ x ∈ leftSet, x ∉ rightSet) →
      ((rsIsSubset leftSet ls = true ∧ rsIsSubset rightSet rs = true) ∨
        (rsIsSubset leftSet rs = true ∧ rsIsSubset rightSet ls = true)) →
      ((buildCondFromInfo leftSet f c cl cr = ⟨cl, cr, c⟩ ∧
          rsIsSubset leftSet ls = true ∧ rsIsSubset rightSet rs = true) ∨
        (buildCondFromInfo leftSet f c cl cr = ⟨cr, cl, c.flip⟩ ∧
          rsIsSubset leftSet rs = true ∧ rsIsSubset rightSet ls = true))) ∧
    (∀ (lb rb : RSet) (st : CJState) (c : CmpOp) (l r : Expr),
      (∀ x ∈ (Expr.cmp c l r).tableRefs, x ∈ lb ∨ x ∈ rb) →
      (createJoinCondition lb rb st (.cmp c l r)).conds ≠ st.conds →
      ∃ cond : JoinCondition,
        (createJoinCondition lb rb st (.cmp c l r)).conds =
          st.conds ++ [cond] ∧
        rsIsSubset lb cond.left.tableRefs = true ∧
        rsIsSubset rb cond.right.tableRefs = true ∧
        ((cond = ⟨l, r, c⟩ ∧ getJoinSide lb rb l ≠ .right) ∨
          (cond = ⟨r, l, c.flip⟩ ∧ getJoinSide lb rb l = .right))) := by
  constructor
  · intro leftSet rightSet ls rs f c cl cr hf hne hdisj hassert
    by_cases hsub : rsIsSubset leftSet ls = true
    · left
      refine ⟨?_, hsub, ?_⟩
      · simp [buildCondFromInfo, hf, hsub]
      · rcases hassert with ⟨_, h2⟩ | ⟨_, h2⟩
        · exact h2
        · obtain ⟨x, hx⟩ := List.exists_mem_of_ne_nil ls hne
          have hx1 := (rsIsSubset_iff leftSet ls).mp hsub x hx
          have hx2 := (rsIsSubset_iff rightSet ls).mp h2 x hx
          exact absurd hx2 (hdisj x hx1)
    · right
      rcases hassert with ⟨h1, _⟩ | ⟨h1, h2⟩
      · exact absurd h1 hsub
      · exact ⟨by simp [buildCondFromInfo, hf, hsub], h1, h2⟩
  · intro lb rb st c l r hwf hchanged
    have hwfl : ∀ x ∈ l.tableRefs, x ∈ lb ∨ x ∈ rb := fun x hx =>
      hwf x (by simp only [Expr.tableRefs]; exact (mem_rsUnion x _ _).mpr (.inl hx))
    have hwfr : ∀ x ∈ r.tableRefs, x ∈ lb ∨ x ∈ rb := fun x hx =>
      hwf x (by simp only [Expr.tableRefs]; exact (mem_rsUnion x _ _).mpr (.inr hx))
    simp only [createJoinCondition] at hchanged ⊢
    split_ifs at hchanged ⊢ with hne hpush hsides hswap
    · simp at hchanged
    · simp at hchanged
    · -- condition branch with swapped operands: leftSide = RIGHT
      have htot : combineJoinSide (getJoinSide lb rb r) (getJoinSide lb rb l) =
          .both := by
        have := not_not.mp hne
        simpa [getJoinSide] using this
      have hsr : getJoinSide lb rb r = .left := by
        rcases combineJoinSide_both _ _ htot with h | h | ⟨h, _⟩ | ⟨_, h⟩
        · exact absurd h hsides.2
        · exact absurd h hsides.1
        · exact h
        · exact absurd hswap (by simp [h])
      refine ⟨⟨r, l, c.flip⟩, by simp, ?_, ?_, .inr ⟨rfl, hswap⟩⟩
      · exact getJoinSide_left_refs lb rb r (.inl hsr)
      · exact getJoinSide_right_refs lb rb l hwfl (.inl hswap)
    · -- condition branch without swap: leftSide = LEFT
      have htot : combineJoinSide (getJoinSide lb rb r) (getJoinSide lb rb l) =
          .both := by
        have := not_not.mp hne
        simpa [getJoinSide] using this
      have hsl : getJoinSide lb rb l = .left ∧ getJoinSide lb rb r = .right := by
        rcases combineJoinSide_both _ _ htot with h | h | ⟨_, h⟩ | ⟨h1, h2⟩
        · exact absurd h hsides.2
        · exact absurd h hsides.1
        · exact absurd h hswap
        · exact ⟨h2, h1⟩
      refine ⟨⟨l, r, c⟩, by simp, ?_, ?_, .inl ⟨rfl, hswap⟩⟩
      · exact getJoinSide_left_refs lb rb l (.inl hsl.1)
      · exact getJoinSide_right_refs lb rb r hwfr (.inl hsl.2)
    · simp at hchanged

/-- Witness for C7: for the chain predicate between relations 0 and 1 (with
children `{0}` and `{1}`), the condition is built unswapped; and
`CreateJoinCondition` on the raw predicate `t10.x = t11.y` of a join with
table bindings `{10}` / `{11}` appends one condition whose operand table
references are subsets of the respective children's binding sets. -/
theorem claim7_condition_orientation_witness :
    (buildCondFromInfo [0] chainFilterAB .lt (.boundColumnRef 10 0)
        (.boundColumnRef 11 0) =
      ⟨.boundColumnRef 10 0, .boundColumnRef 11 0, .lt⟩) ∧
    (∃ cond : JoinCondition,
      (createJoinCondition [10] [11] ⟨.get 10 5, .get 11 5, [], []⟩
          (.cmp .eq (.boundColumnRef 10 0) (.boundColumnRef 11 0))).conds =
        [] ++ [cond] ∧
      rsIsSubset [10] cond.left.tableRefs = true ∧
      rsIsSubset [11] cond.right.tableRefs = true) := by
  constructor
  · have h := claim7_condition_orientation.1 [0] [1] [0] [1] chainFilterAB .lt
      (.boundColumnRef 10 0) (.boundColumnRef 11 0) rfl (by decide) (by decide)
      (Or.inl ⟨by decide, by decide⟩)
    rcases h with ⟨h1, _⟩ | ⟨_, h2, _⟩
    · exact h1
    · exact absurd h2 (by decide)
  · have h := claim7_condition_orientation.2 [10] [11]
      ⟨.get 10 5, .get 11 5, [], []⟩ .eq (.boundColumnRef 10 0)
      (.boundColumnRef 11 0) (by decide)
      (by simp [createJoinCondition, getJoinSide, combineJoinSide])
    obtain ⟨cond, hc, hl, hr, _⟩ := h
    exact ⟨cond, hc, hl, hr⟩

/-! # Infrastructure for the enumeration-optimality proof: sorted sets -/

theorem head?_rsInsert (x : Nat) (l : RSet) (z : Nat) :
    (rsInsert x l).head? = some z → z = x ∨ l.head? = some z := by
  cases l with
  | nil =>
    intro h
    simp only [rsInsert, List.head?] at h
    exact Or.inl (Option.some.inj h).symm
  | cons y ys =>
    simp only [rsInsert]
    split_ifs with h1 h2
    · intro h
      exact Or.inl (Option.some.inj h).symm
    · intro h
      exact Or.inr h
    · intro h
      exact Or.inr h

theorem rsSorted_cons (y : Nat) (ys : RSet) :
    rsSorted (y :: ys) ↔ (∀ b ∈ ys.head?, y < b) ∧ rsSorted ys :=
  List.chain'_cons'

theorem rsSorted_rsInsert (x : Nat) (l : RSet) (h : rsSorted l) :
    rsSorted (rsInsert x l) := by
  induction l with
  | nil => simp [rsInsert, rsSorted]
  | cons y ys ih =>
    rw [rsSorted_cons] at h
    simp only [rsInsert]
    split_ifs with h1 h2
    · rw [rsSorted_cons]
      refine ⟨?_, ?_⟩
      · intro b hb
        simp at hb
        omega
      · rw [rsSorted_cons]
        exact h
    · rw [rsSorted_cons]
      exact h
    · rw [rsSorted_cons]
      refine ⟨?_, ih h.2⟩
      intro b hb
      rcases head?_rsInsert x ys b hb with rfl | hys
      · omega
      · exact h.1 b hys

theorem rsSorted_rsUnion (a b : RSet) (h : rsSorted b) :
    rsSorted (rsUnion a b) := by
  induction a with
  | nil => exact h
  | cons x xs ih => exact rsSorted_rsInsert x _ ih

theorem rsSorted_pairwise (l : RSet) :
    rsSorted l ↔ l.Pairwise (· < ·) := by
  rw [rsSorted, List.chain'_iff_pairwise]

theorem rsSorted_head_lt (y : Nat) (ys : RSet) (h : rsSorted (y :: ys)) :
    ∀ z ∈ ys, y < z := by
  rw [rsSorted_pairwise, List.pairwise_cons] at h
  exact h.1

theorem rsSorted_canonical (a : RSet) :
    ∀ b : RSet, rsSorted a → rsSorted b → (∀ x, x ∈ a ↔ x ∈ b) → a = b := by
  induction a with
  | nil =>
    intro b _ _ hmem
    cases b with
    | nil => rfl
    | cons y ys => exact absurd ((hmem y).2 (by simp)) (by simp)
  | cons x xs ih =>
    intro b ha hb hmem
    cases b with
    | nil => exact absurd ((hmem x).1 (by simp)) (by simp)
    | cons y ys =>
      have hxy : x = y := by
        have hx : x = y ∨ x ∈ ys := by
          have := (hmem x).1 (by simp)
          simpa using this
        have hy : y = x ∨ y ∈ xs := by
          have := (hmem y).2 (by simp)
          simpa using this
        rcases hx with rfl | hx
        · rfl
        · rcases hy with rfl | hy
          · rfl
          · have h1 := rsSorted_head_lt x xs ha y hy
            have h2 := rsSorted_head_lt y ys hb x hx
            omega
      subst hxy
      have htail : xs = ys := by
        refine ih ys ?_ ?_ ?_
        · rw [rsSorted_pairwise] at ha ⊢
          exact (List.pairwise_cons.1 ha).2
        · rw [rsSorted_pairwise] at hb ⊢
          exact (List.pairwise_cons.1 hb).2
        · intro z
          constructor
          · intro hz
            have hzb := (hmem z).1 (by simp [hz])
            rcases (by simpa using hzb : z = x ∨ z ∈ ys) with rfl | h
            · exact absurd (rsSorted_head_lt z xs ha z hz) (by omega)
            · exact h
          · intro hz
            have hza := (hmem z).2 (by simp [hz])
            rcases (by simpa using hza : z = x ∨ z ∈ xs) with rfl | h
            · exact absurd (rsSorted_head_lt z ys hb z hz) (by omega)
            · exact h
      rw [htail]

theorem sorted_headD_le (l : RSet) (x : Nat) (h : rsSorted l) (hx : x ∈ l) :
    l.headD 0 ≤ x := by
  cases l with
  | nil => simp at hx
  | cons y ys =>
    rcases (by simpa using hx : x = y ∨ x ∈ ys) with rfl | hmem
    · simp
    · have := rsSorted_head_lt y ys h x hmem
      simp
      omega

theorem sorted_headD_eq (l : RSet) (i : Nat) (h : rsSorted l) (hi : i ∈ l)
    (hle : ∀ x ∈ l, i ≤ x) : l.headD 0 = i := by
  cases l with
  | nil => simp at hi
  | cons y ys =>
    have h1 := sorted_headD_le (y :: ys) i h hi
    have h2 := hle y (by simp)
    simp at h1 ⊢
    omega

theorem mem_foldl_rsInsert (l : List Nat) :
    ∀ (init : RSet) (x : Nat),
      x ∈ l.foldl (fun acc i => rsInsert i acc) init ↔ x ∈ l ∨ x ∈ init := by
  induction l with
  | nil => simp
  | cons y ys ih =>
    intro init x
    simp only [List.foldl_cons, ih, mem_rsInsert, List.mem_cons]
    tauto

theorem mem_rsOfList (l : List Nat) (x : Nat) :
    x ∈ rsOfList l ↔ x ∈ l := by
  induction l with
  | nil => simp [rsOfList]
  | cons y ys ih =>
    simp only [rsOfList, List.foldr_cons] at *
    rw [mem_rsInsert, ih]
    simp

theorem mem_csgExcl (node : RSet) (x : Nat) :
    x ∈ csgExcl node ↔ x ∈ node ∨ x < node.headD 0 := by
  simp [csgExcl, mem_foldl_rsInsert, List.mem_range]

theorem mem_canonX (i : Nat) (a : RSet) (x : Nat) :
    x ∈ canonX i a ↔ x < i ∨ (x ∈ a ∧ x ≠ i) := by
  simp [canonX, mem_rsOfList, List.mem_append, List.mem_range, List.mem_filter]

/-! # Infrastructure: the max-cardinality measure -/

theorem foldl_max_le_iff (f : Nat → Nat) (s : List Nat) :
    ∀ (a m : Nat),
      s.foldl (fun acc j => max acc (f j)) a ≤ m ↔ a ≤ m ∧ ∀ j ∈ s, f j ≤ m := by
  induction s with
  | nil => simp
  | cons x xs ih =>
    intro a m
    simp only [List.foldl_cons, ih, max_le_iff, List.mem_cons]
    constructor
    · rintro ⟨⟨h1, h2⟩, h3⟩
      exact ⟨h1, fun j hj => by rcases hj with rfl | hj; exact h2; exact h3 j hj⟩
    · rintro ⟨h1, h2⟩
      exact ⟨⟨h1, h2 x (Or.inl rfl)⟩, fun j hj => h2 j (Or.inr hj)⟩

theorem maxCard_le_iff (cards : List Nat) (s : RSet) (m : Nat) :
    maxCard cards s ≤ m ↔ ∀ j ∈ s, cards.getD j 0 ≤ m := by
  rw [maxCard, foldl_max_le_iff]
  simp

theorem le_maxCard (cards : List Nat) (s : RSet) (j : Nat) (hj : j ∈ s) :
    cards.getD j 0 ≤ maxCard cards s :=
  (maxCard_le_iff cards s (maxCard cards s)).1 le_rfl j hj

theorem maxCard_congr (cards : List Nat) (a b : RSet) (h : rsEquiv a b) :
    maxCard cards a = maxCard cards b := by
  refine Nat.le_antisymm ?_ ?_
  · rw [maxCard_le_iff]
    intro j hj
    exact le_maxCard cards b j ((h j).1 hj)
  · rw [maxCard_le_iff]
    intro j hj
    exact le_maxCard cards a j ((h j).2 hj)

theorem maxCard_rsUnion (cards : List Nat) (a b : RSet) :
    maxCard cards (rsUnion a b) = max (maxCard cards a) (maxCard cards b) := by
  refine Nat.le_antisymm ?_ ?_
  · rw [maxCard_le_iff]
    intro j hj
    rcases (mem_rsUnion j a b).1 hj with h | h
    · exact le_trans (le_maxCard cards a j h) (le_max_left _ _)
    · exact le_trans (le_maxCard cards b j h) (le_max_right _ _)
  · rw [max_le_iff]
    constructor
    · rw [maxCard_le_iff]
      intro j hj
      exact le_maxCard cards _ j ((mem_rsUnion j a b).2 (Or.inl hj))
    · rw [maxCard_le_iff]
      intro j hj
      exact le_maxCard cards _ j ((mem_rsUnion j a b).2 (Or.inr hj))

theorem maxCard_single (cards : List Nat) (j : Nat) :
    maxCard cards [j] = cards.getD j 0 := by
  simp [maxCard]

/-! # Infrastructure: query-graph accessors -/

theorem mem_getNeighbors (edges : List Edge) (s excl : RSet) (n : Nat) :
    n ∈ getNeighbors edges s excl ↔
      ∃ e ∈ edges, rsIsSubset s e.efrom = true ∧
        e.eto.all (fun x => !excl.contains x) = true ∧ e.eto.head? = some n := by
  simp only [getNeighbors, List.mem_dedup, List.mem_filterMap]
  constructor
  · rintro ⟨e, he, hx⟩
    by_cases hc : (rsIsSubset s e.efrom &&
        e.eto.all fun x => !excl.contains x) = true
    · rw [if_pos hc] at hx
      simp only [Bool.and_eq_true] at hc
      exact ⟨e, he, hc.1, hc.2, hx⟩
    · rw [if_neg hc] at hx
      exact absurd hx (by simp)
  · rintro ⟨e, he, h1, h2, h3⟩
    refine ⟨e, he, ?_⟩
    rw [if_pos (by rw [h1, h2, Bool.true_and])]
    exact h3

theorem getConnection_some_mem (edges : List Edge) (a b : RSet)
    (info : NeighborInfo) (h : getConnection edges a b = some info) :
    ∃ e ∈ edges, rsIsSubset a e.efrom = true ∧ rsIsSubset b e.eto = true ∧
      info = ⟨e.filters⟩ := by
  simp only [getConnection, Option.map_eq_some'] at h
  obtain ⟨e, he, rfl⟩ := h
  have hmem := List.mem_of_find?_eq_some he
  have hp := List.find?_some he
  simp only [Bool.and_eq_true] at hp
  exact ⟨e, hmem, hp.1, hp.2, rfl⟩

theorem getConnection_isSome_iff (edges : List Edge) (a b : RSet) :
    (getConnection edges a b).isSome = true ↔
      ∃ e ∈ edges, rsIsSubset a e.efrom = true ∧ rsIsSubset b e.eto = true := by
  simp only [getConnection, Option.isSome_map', List.find?_isSome,
    Bool.and_eq_true]

theorem getConnection_symm (edges : List Edge) (a b : RSet)
    (hwf : edgesWF edges) (h : (getConnection edges a b).isSome = true) :
    (getConnection edges b a).isSome = true := by
  rw [getConnection_isSome_iff] at h ⊢
  obtain ⟨e, he, h1, h2⟩ := h
  obtain ⟨-, -, -, e', he', hfrom, hto⟩ := hwf e he
  exact ⟨e', he', by rw [hfrom]; exact h2, by rw [hto]; exact h1⟩

theorem getConnection_filters (edges : List Edge) (a b : RSet)
    (info : NeighborInfo) (hwf : edgesWF edges)
    (h : getConnection edges a b = some info) : info.filters ≠ [] := by
  obtain ⟨e, he, -, -, rfl⟩ := getConnection_some_mem edges a b info h
  exact (hwf e he).1

/-! # Infrastructure: the memo table -/

theorem plansInsert_lookup (p : List (RSet × JoinNode)) (k : RSet)
    (v : JoinNode) (s : RSet) :
    (plansInsert p k v).lookup s = if s = k then some v else p.lookup s := by
  induction p with
  | nil =>
    by_cases h : s = k
    · simp [plansInsert, List.lookup, h]
    · have hbe : (s == k) = false := by simp [h]
      simp [plansInsert, List.lookup, h, hbe]
  | cons e rest ih =>
    obtain ⟨a, n'⟩ := e
    by_cases h1 : a = k
    · subst h1
      by_cases h2 : s = a
      · subst h2
        simp [plansInsert, List.lookup]
      · have hbe : (s == a) = false := by simp [h2]
        simp [plansInsert, List.lookup, h2, hbe]
    · by_cases h2 : s = a
      · subst h2
        have hsk : ¬s = k := fun hc => h1 hc
        simp [plansInsert, List.lookup, h1, hsk]
      · have hbe : (s == a) = false := by simp [h2]
        simp [plansInsert, List.lookup, h1, h2, hbe, ih]

/-! # Infrastructure: state evolution -/

theorem plansMono_refl (st : OptState) : plansMono st st :=
  fun _ nd h => ⟨nd, h, le_rfl⟩

theorem plansMono_trans {a b c : OptState} (h1 : plansMono a b)
    (h2 : plansMono b c) : plansMono a c := by
  intro s nd h
  obtain ⟨nd1, hl1, hc1⟩ := h1 s nd h
  obtain ⟨nd2, hl2, hc2⟩ := h2 s nd1 hl1
  exact ⟨nd2, hl2, le_trans hc2 hc1⟩

theorem evolves_refl (st : OptState) : evolves st st :=
  ⟨rfl, rfl, plansMono_refl st, fun _ _ h => h⟩

theorem evolves_trans {a b c : OptState} (h1 : evolves a b)
    (h2 : evolves b c) : evolves a c := by
  obtain ⟨he1, hr1, hm1, hc1⟩ := h1
  obtain ⟨he2, hr2, hm2, hc2⟩ := h2
  refine ⟨he2.trans he1, hr2.trans hr1, plansMono_trans hm1 hm2, ?_⟩
  intro cards hwf hci
  exact hc2 cards (he1 ▸ hwf) (hc1 cards hwf hci)

theorem goodFor_evolves {st st' : OptState} {s : RSet} {c : Nat}
    (h : goodFor st s c) (he : evolves st st') : goodFor st' s c := by
  obtain ⟨nd, hl, hc⟩ := h
  obtain ⟨nd', hl', hc'⟩ := he.2.2.1 s nd hl
  exact ⟨nd', hl', le_trans hc' hc⟩

theorem isSome_evolves {st st' : OptState} {s : RSet}
    (h : (st.plans.lookup s).isSome = true) (he : evolves st st') :
    (st'.plans.lookup s).isSome = true := by
  obtain ⟨nd, hl⟩ := Option.isSome_iff_exists.1 h
  obtain ⟨nd', hl', -⟩ := he.2.2.1 s nd hl
  simp [hl']

/-! # Infrastructure: pair emission -/

theorem createJoinTree_cost (s : RSet) (info : NeighborInfo)
    (l r : JoinNode) :
    (createJoinTree s info l r).cost =
      (if info.filters.length = 0 then l.cardinality * r.cardinality
       else max l.cardinality r.cardinality) + l.cost + r.cost := by
  unfold createJoinTree createJoinTreeOrdered
  split_ifs with h1 h2 h3
  · simp only [JoinNode.cost]
    rw [Nat.mul_comm]
    omega
  · simp only [JoinNode.cost]
    rw [Nat.max_comm]
    omega
  · simp only [JoinNode.cost]
  · simp only [JoinNode.cost]

theorem createJoinTree_card (s : RSet) (info : NeighborInfo)
    (l r : JoinNode) :
    (createJoinTree s info l r).cardinality =
      if info.filters.length = 0 then l.cardinality * r.cardinality
      else max l.cardinality r.cardinality := by
  unfold createJoinTree createJoinTreeOrdered
  split_ifs with h1 h2 h3
  · simp only [JoinNode.cardinality]
    exact Nat.mul_comm _ _
  · simp only [JoinNode.cardinality]
    exact Nat.max_comm _ _
  · simp only [JoinNode.cardinality]
  · simp only [JoinNode.cardinality]

theorem emitPair_state (st : OptState) (l r : RSet) (info : NeighborInfo) :
    (emitPair st l r info).2.edges = st.edges ∧
    (emitPair st l r info).2.relationCount = st.relationCount ∧
    plansMono st (emitPair st l r info).2 := by
  unfold emitPair
  rcases hL : st.plans.lookup l with _ | ndL
  · exact ⟨rfl, rfl, plansMono_refl st⟩
  rcases hR : st.plans.lookup r with _ | ndR
  · exact ⟨rfl, rfl, plansMono_refl st⟩
  simp only
  rcases hN : st.plans.lookup (rsUnion l r) with _ | entry
  · refine ⟨rfl, rfl, ?_⟩
    intro s nd h
    simp only [plansInsert_lookup]
    split_ifs with hs
    · subst hs
      rw [h] at hN
      exact absurd hN (by simp)
    · exact ⟨nd, h, le_rfl⟩
  · simp only
    split_ifs with hc
    · refine ⟨rfl, rfl, ?_⟩
      intro s nd h
      simp only [plansInsert_lookup]
      split_ifs with hs
      · subst hs
        rw [h] at hN
        injection hN with hN
        subst hN
        exact ⟨_, rfl, le_of_lt hc⟩
      · exact ⟨nd, h, le_rfl⟩
    · exact ⟨rfl, rfl, plansMono_refl st⟩

theorem emitPair_cardInv (st : OptState) (l r : RSet) (info : NeighborInfo)
    (cards : List Nat) (hinfo : info.filters ≠ [])
    (hci : cardInv cards st) : cardInv cards (emitPair st l r info).2 := by
  unfold emitPair
  rcases hL : st.plans.lookup l with _ | ndL
  · exact hci
  rcases hR : st.plans.lookup r with _ | ndR
  · exact hci
  simp only
  have hcardNew :
      (createJoinTree (rsUnion l r) info ndL ndR).cardinality =
        maxCard cards (rsUnion l r) := by
    rw [createJoinTree_card, if_neg (by simpa using hinfo), hci l ndL hL,
      hci r ndR hR, maxCard_rsUnion]
  have hins : cardInv cards
      { st with
        plans := (plansInsert st.plans (rsUnion l r)
          (createJoinTree (rsUnion l r) info ndL ndR)) } := by
    intro s nd h
    simp only [plansInsert_lookup] at h
    split_ifs at h with hs
    · subst hs
      injection h with h
      subst h
      exact hcardNew
    · exact hci s nd h
  rcases hN : st.plans.lookup (rsUnion l r) with _ | entry
  · simp only
    exact hins
  · simp only
    split_ifs with hc
    · exact hins
    · exact hci

theorem tryEmitPair_state (st : OptState) (l r : RSet) (info : NeighborInfo) :
    (tryEmitPair st l r info).2.edges = st.edges ∧
    (tryEmitPair st l r info).2.relationCount = st.relationCount ∧
    plansMono st (tryEmitPair st l r info).2 := by
  unfold tryEmitPair
  dsimp only
  split_ifs with h
  · exact ⟨rfl, rfl, plansMono_refl st⟩
  · have := emitPair_state { st with pairs := st.pairs + 1 } l r info
    exact ⟨this.1, this.2.1, this.2.2⟩

theorem tryEmitPair_cardInv (st : OptState) (l r : RSet)
    (info : NeighborInfo) (cards : List Nat) (hinfo : info.filters ≠ [])
    (hci : cardInv cards st) : cardInv cards (tryEmitPair st l r info).2 := by
  unfold tryEmitPair
  dsimp only
  split_ifs with h
  · exact hci
  · exact emitPair_cardInv { st with pairs := st.pairs + 1 } l r info cards
      hinfo hci

/-- A `TryEmitPair` call whose neighbor info came from `GetConnection`
evolves the state. -/
theorem tryEmitPair_evolves_conn {st : OptState} {a b : RSet}
    {info : NeighborInfo} (h : getConnection st.edges a b = some info)
    (l r : RSet) : evolves st (tryEmitPair st l r info).2 := by
  obtain ⟨he, hr, hm⟩ := tryEmitPair_state st l r info
  refine ⟨he, hr, hm, ?_⟩
  intro cards hwf hci
  exact tryEmitPair_cardInv st l r info cards
    (getConnection_filters _ _ _ _ hwf h) hci

theorem cmpEmitLoop_evolves (l r : RSet) :
    ∀ (ns : List Nat) (st : OptState) (b : Bool) (st' : OptState),
      cmpEmitLoop st l r ns = some (b, st') → evolves st st' := by
  intro ns
  induction ns with
  | nil =>
    intro st b st' h
    simp only [cmpEmitLoop] at h
    injection h with h
    injection h with h1 h2
    subst h2
    exact evolves_refl st
  | cons n ns ih =>
    intro st b st' h
    simp only [cmpEmitLoop] at h
    split_ifs at h with hsome
    · rcases hg : getConnection st.edges l (rsUnion r [n]) with _ | conn
      · rw [hg] at h
        exact ih st b st' h
      · rw [hg] at h
        simp only at h
        rcases he : tryEmitPair st l (rsUnion r [n]) conn with ⟨ok, st1⟩
        rw [he] at h
        have hev : evolves st st1 := by
          have := tryEmitPair_evolves_conn hg l (rsUnion r [n])
          rw [he] at this
          exact this
        cases ok with
        | false =>
          simp only [Bool.false_eq_true, if_neg, if_false] at h
          injection h with h
          injection h with h1 h2
          subst h2
          exact hev
        | true =>
          simp only [if_true] at h
          exact evolves_trans hev (ih st1 b st' h)
    · exact ih st b st' h

theorem enumRun_evolve :
    ∀ (fuel : Nat) (st : OptState) (call : EnumCall) (b : Bool)
      (st' : OptState), enumRun fuel st call = some (b, st') →
      evolves st st' := by
  intro fuel
  induction fuel with
  | zero =>
    intro st call b st' h
    simp [enumRun] at h
  | succ fuel ih =>
    intro st call b st' h
    cases call with
    | csg node =>
      simp only [enumRun] at h
      split_ifs at h with hlen
      · injection h with h
        injection h with h1 h2
        subst h2
        exact evolves_refl st
      · exact ih st _ b st' h
    | csgLoop node neighbors exclusionSet =>
      cases neighbors with
      | nil =>
        simp only [enumRun] at h
        injection h with h
        injection h with h1 h2
        subst h2
        exact evolves_refl st
      | cons n ns =>
        simp only [enumRun] at h
        rcases hg : getConnection st.edges node [n] with _ | conn <;>
          rw [hg] at h
        · simp only at h
          rcases hsub : enumRun fuel st (.cmp node [n] exclusionSet)
            with _ | ⟨b2, st2⟩ <;> rw [hsub] at h
          · exact absurd h (by simp)
          · cases b2 with
            | false =>
              injection h with h
              injection h with h1 h2
              subst h2
              exact ih st _ _ _ hsub
            | true =>
              exact evolves_trans (ih st _ _ _ hsub) (ih st2 _ _ _ h)
        · simp only at h
          rcases he : tryEmitPair st node [n] conn with ⟨ok, st1⟩
          rw [he] at h
          have hev : evolves st st1 := by
            have := tryEmitPair_evolves_conn hg node [n]
            rw [he] at this
            exact this
          cases ok with
          | false =>
            simp only at h
            injection h with h
            injection h with h1 h2
            subst h2
            exact hev
          | true =>
            simp only at h
            rcases hsub : enumRun fuel st1 (.cmp node [n] exclusionSet)
              with _ | ⟨b2, st2⟩ <;> rw [hsub] at h
            · exact absurd h (by simp)
            · cases b2 with
              | false =>
                injection h with h
                injection h with h1 h2
                subst h2
                exact evolves_trans hev (ih st1 _ _ _ hsub)
              | true =>
                exact evolves_trans hev
                  (evolves_trans (ih st1 _ _ _ hsub) (ih st2 _ _ _ h))
    | cmp left right exclusionSet =>
      simp only [enumRun] at h
      split_ifs at h with hlen
      · injection h with h
        injection h with h1 h2
        subst h2
        exact evolves_refl st
      · rcases hloop : cmpEmitLoop st left right
          (getNeighbors st.edges right exclusionSet) with _ | ⟨b1, st1⟩ <;>
          rw [hloop] at h
        · exact absurd h (by simp)
        · have hev := cmpEmitLoop_evolves left right _ st b1 st1 hloop
          cases b1 with
          | false =>
            injection h with h
            injection h with h1 h2
            subst h2
            exact hev
          | true =>
            exact evolves_trans hev (ih st1 _ _ _ h)
    | cmpLoop left right neighbors exclusionSet =>
      cases neighbors with
      | nil =>
        simp only [enumRun] at h
        injection h with h
        injection h with h1 h2
        subst h2
        exact evolves_refl st
      | cons n ns =>
        simp only [enumRun] at h
        rcases hsub : enumRun fuel st
          (.cmp left (rsUnion right [n]) (rsInsert n exclusionSet))
          with _ | ⟨b2, st2⟩ <;> rw [hsub] at h
        · exact absurd h (by simp)
        · cases b2 with
          | false =>
            injection h with h
            injection h with h1 h2
            subst h2
            exact ih st _ _ _ hsub
          | true =>
            exact evolves_trans (ih st _ _ _ hsub) (ih st2 _ _ _ h)
    | csgRec node exclusionSet =>
      simp only [enumRun] at h
      split_ifs at h with hlen
      · injection h with h
        injection h with h1 h2
        subst h2
        exact evolves_refl st
      · rcases hsub : enumRun fuel st
          (.csgRecEmitLoop node (getNeighbors st.edges node exclusionSet))
          with _ | ⟨b2, st2⟩ <;> rw [hsub] at h
        · exact absurd h (by simp)
        · cases b2 with
          | false =>
            injection h with h
            injection h with h1 h2
            subst h2
            exact ih st _ _ _ hsub
          | true =>
            exact evolves_trans (ih st _ _ _ hsub) (ih st2 _ _ _ h)
    | csgRecEmitLoop node neighbors =>
      cases neighbors with
      | nil =>
        simp only [enumRun] at h
        injection h with h
        injection h with h1 h2
        subst h2
        exact evolves_refl st
      | cons n ns =>
        simp only [enumRun] at h
        split_ifs at h with hsome
        · rcases hsub : enumRun fuel st (.csg (rsUnion node [n]))
            with _ | ⟨b2, st2⟩ <;> rw [hsub] at h
          · exact absurd h (by simp)
          · cases b2 with
            | false =>
              injection h with h
              injection h with h1 h2
              subst h2
              exact ih st _ _ _ hsub
            | true =>
              exact evolves_trans (ih st _ _ _ hsub) (ih st2 _ _ _ h)
        · exact ih st _ _ _ h
    | csgRecLoop node neighbors exclusionSet =>
      cases neighbors with
      | nil =>
        simp only [enumRun] at h
        injection h with h
        injection h with h1 h2
        subst h2
        exact evolves_refl st
      | cons n ns =>
        simp only [enumRun] at h
        rcases hsub : enumRun fuel st
          (.csgRec (rsUnion node [n]) (rsInsert n exclusionSet))
          with _ | ⟨b2, st2⟩ <;> rw [hsub] at h
        · exact absurd h (by simp)
        · cases b2 with
          | false =>
            injection h with h
            injection h with h1 h2
            subst h2
            exact ih st _ _ _ hsub
          | true =>
            exact evolves_trans (ih st _ _ _ hsub) (ih st2 _ _ _ h)

/-! # Infrastructure: emitted pairs improve the memo -/

theorem emitPair_good (st : OptState) (l r : RSet) (info : NeighborInfo)
    (cards : List Nat) (cl cr : Nat) (hinfo : info.filters ≠ [])
    (hci : cardInv cards st) (hl : goodFor st l cl) (hr : goodFor st r cr) :
    goodFor (emitPair st l r info).2 (rsUnion l r)
      (maxCard cards (rsUnion l r) + cl + cr) := by
  obtain ⟨ndL, hL, hcl⟩ := hl
  obtain ⟨ndR, hR, hcr⟩ := hr
  unfold emitPair
  rw [hL, hR]
  simp only
  have hcost : (createJoinTree (rsUnion l r) info ndL ndR).cost ≤
      maxCard cards (rsUnion l r) + cl + cr := by
    rw [createJoinTree_cost, if_neg (by simpa using hinfo), hci l ndL hL,
      hci r ndR hR, maxCard_rsUnion]
    exact Nat.add_le_add (Nat.add_le_add le_rfl hcl) hcr
  rcases hN : st.plans.lookup (rsUnion l r) with _ | entry
  · exact ⟨_, by simp [plansInsert_lookup], hcost⟩
  · simp only
    split_ifs with hc
    · exact ⟨_, by simp [plansInsert_lookup], hcost⟩
    · exact ⟨entry, hN, le_trans (not_lt.1 hc) hcost⟩

theorem tryEmitPair_good (st st' : OptState) (l r : RSet)
    (info : NeighborInfo) (cards : List Nat) (cl cr : Nat)
    (h : tryEmitPair st l r info = (true, st')) (hinfo : info.filters ≠ [])
    (hci : cardInv cards st) (hl : goodFor st l cl) (hr : goodFor st r cr) :
    goodFor st' (rsUnion l r) (maxCard cards (rsUnion l r) + cl + cr) := by
  unfold tryEmitPair at h
  dsimp only at h
  split_ifs at h with hp
  · exact absurd h (by simp)
  · injection h with h1 h2
    subst h2
    exact emitPair_good { st with pairs := st.pairs + 1 } l r info cards cl cr
      hinfo (fun s nd hs => hci s nd hs) hl hr

/-! # Infrastructure: the growth relation -/

theorem growStep_neighbor {edges : List Edge} {p q : RSet × RSet}
    (h : growStep edges p q) :
    ∃ n, n ∈ getNeighbors edges p.1 p.2 ∧ n ∉ p.1 ∧
      q = (rsUnion p.1 [n], rsInsert n p.2) := by
  obtain ⟨e, he, n, h1, h2, h3, h4, h5⟩ := h
  exact ⟨n, (mem_getNeighbors edges p.1 p.2 n).2 ⟨e, he, h1, h2, h3⟩, h4, h5⟩

theorem growable_subset {edges : List Edge} {p q : RSet × RSet}
    (h : growable edges p q) : ∀ x ∈ p.1, x ∈ q.1 := by
  induction h with
  | refl => exact fun x hx => hx
  | tail hstep hlast ih =>
    intro x hx
    obtain ⟨n, -, -, rfl⟩ := growStep_neighbor hlast
    exact (mem_rsUnion x _ [n]).2 (Or.inl (ih x hx))

theorem growable_sorted {edges : List Edge} {p q : RSet × RSet}
    (h : growable edges p q) (hs : rsSorted p.1) : rsSorted q.1 := by
  induction h with
  | refl => exact hs
  | tail hstep hlast ih =>
    obtain ⟨n, -, -, rfl⟩ := growStep_neighbor hlast
    exact rsSorted_rsUnion _ [n] (List.chain'_singleton n)

theorem growable_transfer {edges : List Edge} :
    ∀ (p q : RSet × RSet), growable edges p q → ∀ x', rsEquiv p.2 x' →
      ∃ xd', growable edges (p.1, x') (q.1, xd') ∧ rsEquiv q.2 xd' := by
  intro p q h
  induction h using Relation.ReflTransGen.head_induction_on with
  | refl => exact fun x' he => ⟨x', Relation.ReflTransGen.refl, he⟩
  | head hstep hrest ih =>
    intro x' he
    obtain ⟨e, hel, n, h1, h2, h3, h4, h5⟩ := hstep
    subst h5
    obtain ⟨xd', hg, he'⟩ := ih (rsInsert n x') (by
      intro z
      rw [mem_rsInsert, mem_rsInsert]
      exact or_congr Iff.rfl (he z))
    refine ⟨xd', Relation.ReflTransGen.head ⟨e, hel, n, h1, ?_, h3, h4, rfl⟩ hg,
      he'⟩
    rw [List.all_eq_true] at h2 ⊢
    intro z hz
    have hzz := h2 z hz
    simp only [Bool.not_eq_true'] at hzz ⊢
    rw [← Bool.not_eq_true] at hzz ⊢
    rw [contains_iff] at hzz ⊢
    intro hc
    exact hzz ((he z).2 hc)

/-! # Infrastructure: locating a branch inside the enumeration loops -/

theorem cmpEmitLoop_emits (l r : RSet) (cards : List Nat) :
    ∀ (ns : List Nat) (st st' : OptState),
      cmpEmitLoop st l r ns = some (true, st') →
      edgesWF st.edges → cardInv cards st →
      ∀ n ∈ ns, ∀ cl cd,
        goodFor st l cl → goodFor st (rsUnion r [n]) cd →
        (getConnection st.edges l (rsUnion r [n])).isSome = true →
        goodFor st' (rsUnion l (rsUnion r [n]))
          (maxCard cards (rsUnion l (rsUnion r [n])) + cl + cd) := by
  intro ns
  induction ns with
  | nil =>
    intro st st' h hwf hci n hn
    simp at hn
  | cons m ms ih =>
    intro st st' h hwf hci n hn cl cd hgl hgd hconn
    simp only [cmpEmitLoop] at h
    split_ifs at h with hsome
    · rcases hg : getConnection st.edges l (rsUnion r [m]) with _ | conn <;>
        rw [hg] at h
      · rcases List.mem_cons.1 hn with rfl | hmem
        · rw [hg] at hconn
          exact absurd hconn (by simp)
        · exact ih st st' h hwf hci n hmem cl cd hgl hgd hconn
      · simp only at h
        rcases he : tryEmitPair st l (rsUnion r [m]) conn with ⟨ok, st1⟩
        rw [he] at h
        have hev : evolves st st1 := by
          have := tryEmitPair_evolves_conn hg l (rsUnion r [m])
          rw [he] at this
          exact this
        cases ok with
        | false =>
          simp only at h
          exact absurd h (by simp)
        | true =>
          simp only at h
          have hev2 : evolves st1 st' := cmpEmitLoop_evolves l r ms st1 true st' h
          rcases List.mem_cons.1 hn with rfl | hmem
          · have hgood : goodFor st1 (rsUnion l (rsUnion r [n]))
                (maxCard cards (rsUnion l (rsUnion r [n])) + cl + cd) :=
              tryEmitPair_good st st1 l (rsUnion r [n]) conn cards cl cd he
                (getConnection_filters _ _ _ _ hwf hg) hci hgl hgd
            exact goodFor_evolves hgood hev2
          · refine ih st1 st' h ?_ ?_ n hmem cl cd
              (goodFor_evolves hgl hev) (goodFor_evolves hgd hev) ?_
            · rw [hev.1]
              exact hwf
            · exact hev.2.2.2 cards hwf hci
            · rw [hev.1]
              exact hconn
    · rcases List.mem_cons.1 hn with rfl | hmem
      · obtain ⟨nd, hl, -⟩ := hgd
        rw [hl] at hsome
        exact absurd (by simp : (some nd).isSome = true) hsome
      · exact ih st st' h hwf hci n hmem cl cd hgl hgd hconn

theorem cmpLoop_branch :
    ∀ (ns : List Nat) (fuel : Nat) (st st' : OptState) (l r x : RSet),
      enumRun fuel st (.cmpLoop l r ns x) = some (true, st') →
      ∀ n ∈ ns, ∃ f1 st1 st2, evolves st st1 ∧
        enumRun f1 st1 (.cmp l (rsUnion r [n]) (rsInsert n x)) =
          some (true, st2) ∧
        evolves st2 st' := by
  intro ns
  induction ns with
  | nil =>
    intro fuel st st' l r x h n hn
    simp at hn
  | cons m ms ih =>
    intro fuel st st' l r x h n hn
    cases fuel with
    | zero => simp [enumRun] at h
    | succ fuel =>
      simp only [enumRun] at h
      rcases hsub : enumRun fuel st (.cmp l (rsUnion r [m]) (rsInsert m x))
        with _ | ⟨b2, st2⟩ <;> rw [hsub] at h
      · exact absurd h (by simp)
      · cases b2 with
        | false => exact absurd h (by simp)
        | true =>
          rcases List.mem_cons.1 hn with rfl | hmem
          · exact ⟨fuel, st, st2, evolves_refl st, hsub,
              enumRun_evolve fuel st2 _ _ _ h⟩
          · obtain ⟨f1, st1, st3, hev1, hrun, hev2⟩ :=
              ih fuel st2 st' l r x h n hmem
            exact ⟨f1, st1, st3,
              evolves_trans (enumRun_evolve _ _ _ _ _ hsub) hev1, hrun, hev2⟩

theorem csgLoop_branch :
    ∀ (ns : List Nat) (fuel : Nat) (st st' : OptState) (node x : RSet),
      enumRun fuel st (.csgLoop node ns x) = some (true, st') →
      ∀ n ∈ ns, ∃ st1 ok st2 f1 st3, evolves st st1 ∧
        (match getConnection st1.edges node [n] with
          | some conn => tryEmitPair st1 node [n] conn
          | none => (true, st1)) = (ok, st2) ∧ ok = true ∧
        enumRun f1 st2 (.cmp node [n] x) = some (true, st3) ∧
        evolves st3 st' := by
  intro ns
  induction ns with
  | nil =>
    intro fuel st st' node x h n hn
    simp at hn
  | cons m ms ih =>
    intro fuel st st' node x h n hn
    cases fuel with
    | zero => simp [enumRun] at h
    | succ fuel =>
      simp only [enumRun] at h
      rcases hae : (match getConnection st.edges node [m] with
        | some conn => tryEmitPair st node [m] conn
        | none => (true, st)) with ⟨ok, st1⟩
      rw [hae] at h
      have hevae : evolves st st1 := by
        rcases hg : getConnection st.edges node [m] with _ | conn <;>
          rw [hg] at hae <;> simp only at hae
        · injection hae with h1 h2
          subst h2
          exact evolves_refl st
        · have := tryEmitPair_evolves_conn hg node [m]
          rw [hae] at this
          exact this
      cases ok with
      | false =>
        simp only at h
        exact absurd h (by simp)
      | true =>
        simp only at h
        rcases hsub : enumRun fuel st1 (.cmp node [m] x)
          with _ | ⟨b2, st2⟩ <;> rw [hsub] at h
        · exact absurd h (by simp)
        · cases b2 with
          | false => exact absurd h (by simp)
          | true =>
            rcases List.mem_cons.1 hn with rfl | hmem
            · exact ⟨st, true, st1, fuel, st2, evolves_refl st, hae, rfl,
                hsub, enumRun_evolve fuel st2 _ _ _ h⟩
            · obtain ⟨st1', ok', st2', f1, st3, hev1, hae', hok, hrun, hev2⟩ :=
                ih fuel st2 st' node x h n hmem
              refine ⟨st1', ok', st2', f1, st3, ?_, hae', hok, hrun, hev2⟩
              exact evolves_trans
                (evolves_trans hevae (enumRun_evolve _ _ _ _ _ hsub)) hev1

theorem csgRecEmitLoop_branch :
    ∀ (ns : List Nat) (fuel : Nat) (st st' : OptState) (node : RSet),
      enumRun fuel st (.csgRecEmitLoop node ns) = some (true, st') →
      ∀ n ∈ ns, (st.plans.lookup (rsUnion node [n])).isSome = true →
      ∃ st1 f1 st2, evolves st st1 ∧
        enumRun f1 st1 (.csg (rsUnion node [n])) = some (true, st2) ∧
        evolves st2 st' := by
  intro ns
  induction ns with
  | nil =>
    intro fuel st st' node h n hn
    simp at hn
  | cons m ms ih =>
    intro fuel st st' node h n hn hpres
    cases fuel with
    | zero => simp [enumRun] at h
    | succ fuel =>
      simp only [enumRun] at h
      split_ifs at h with hsome
      · rcases hsub : enumRun fuel st (.csg (rsUnion node [m]))
          with _ | ⟨b2, st2⟩ <;> rw [hsub] at h
        · exact absurd h (by simp)
        · cases b2 with
          | false => exact absurd h (by simp)
          | true =>
            rcases List.mem_cons.1 hn with rfl | hmem
            · exact ⟨st, fuel, st2, evolves_refl st, hsub,
                enumRun_evolve fuel st2 _ _ _ h⟩
            · obtain ⟨st1, f1, st3, hev1, hrun, hev2⟩ := ih fuel st2 st' node h
                n hmem (isSome_evolves hpres (enumRun_evolve _ _ _ _ _ hsub))
              exact ⟨st1, f1, st3,
                evolves_trans (enumRun_evolve _ _ _ _ _ hsub) hev1, hrun, hev2⟩
      · rcases List.mem_cons.1 hn with rfl | hmem
        · exact absurd hpres hsome
        · exact ih fuel st st' node h n hmem hpres

theorem csgRecLoop_branch :
    ∀ (ns : List Nat) (fuel : Nat) (st st' : OptState) (node x : RSet),
      enumRun fuel st (.csgRecLoop node ns x) = some (true, st') →
      ∀ n ∈ ns, ∃ f1 st1 st2, f1 < fuel ∧ evolves st st1 ∧
        enumRun f1 st1 (.csgRec (rsUnion node [n]) (rsInsert n x)) =
          some (true, st2) ∧
        evolves st2 st' := by
  intro ns
  induction ns with
  | nil =>
    intro fuel st st' node x h n hn
    simp at hn
  | cons m ms ih =>
    intro fuel st st' node x h n hn
    cases fuel with
    | zero => simp [enumRun] at h
    | succ fuel =>
      simp only [enumRun] at h
      rcases hsub : enumRun fuel st (.csgRec (rsUnion node [m]) (rsInsert m x))
        with _ | ⟨b2, st2⟩ <;> rw [hsub] at h
      · exact absurd h (by simp)
      · cases b2 with
        | false => exact absurd h (by simp)
        | true =>
          rcases List.mem_cons.1 hn with rfl | hmem
          · exact ⟨fuel, st, st2, Nat.lt_succ_self fuel, evolves_refl st,
              hsub, enumRun_evolve fuel st2 _ _ _ h⟩
          · obtain ⟨f1, st1, st3, hf1, hev1, hrun, hev2⟩ :=
              ih fuel st2 st' node x h n hmem
            exact ⟨f1, st1, st3, Nat.lt_succ_of_lt hf1,
              evolves_trans (enumRun_evolve _ _ _ _ _ hsub) hev1, hrun, hev2⟩

/-! # The complement enumeration reaches every growable complement -/

theorem cmp_reach (edges : List Edge) (cards : List Nat) (l : RSet) :
    ∀ (p q : RSet × RSet), Relation.TransGen (growStep edges) p q →
      ∀ (fuel : Nat) (st st' : OptState) (cl cd : Nat),
        enumRun fuel st (.cmp l p.1 p.2) = some (true, st') →
        st.edges = edges → edgesWF edges → cardInv cards st →
        goodFor st l cl → goodFor st q.1 cd →
        (getConnection edges l q.1).isSome = true →
        goodFor st' (rsUnion l q.1)
          (maxCard cards (rsUnion l q.1) + cl + cd) := by
  intro p q h
  induction h using Relation.TransGen.head_induction_on with
  | base hstep =>
    rename_i a
    intro fuel st st' cl cd hrun hst hwf hci hgl hgd hconn
    obtain ⟨n, hnn, hfresh, hq⟩ := growStep_neighbor hstep
    cases fuel with
    | zero => simp [enumRun] at hrun
    | succ fuel =>
      simp only [enumRun] at hrun
      rw [hst] at hrun
      split_ifs at hrun with hlen
      · rw [List.length_eq_zero] at hlen
        rw [hlen] at hnn
        simp at hnn
      · rcases hloop : cmpEmitLoop st l a.1 (getNeighbors edges a.1 a.2)
          with _ | ⟨b1, st1⟩ <;> rw [hloop] at hrun
        · exact absurd hrun (by simp)
        · cases b1 with
          | false => exact absurd hrun (by simp)
          | true =>
            have hgood : goodFor st1 (rsUnion l (rsUnion a.1 [n]))
                (maxCard cards (rsUnion l (rsUnion a.1 [n])) + cl + cd) := by
              refine cmpEmitLoop_emits l a.1 cards _ st st1 hloop
                (by rw [← hst] at hwf; exact hwf) hci n hnn cl cd hgl ?_ ?_
              · have : q.1 = rsUnion a.1 [n] := by rw [hq]
                rw [← this]
                exact hgd
              · have : q.1 = rsUnion a.1 [n] := by rw [hq]
                rw [hst, ← this]
                exact hconn
            have hq1 : q.1 = rsUnion a.1 [n] := by rw [hq]
            rw [← hq1] at hgood
            exact goodFor_evolves hgood (enumRun_evolve _ _ _ _ _ hrun)
  | ih hstep hrest ihp =>
    rename_i a c
    intro fuel st st' cl cd hrun hst hwf hci hgl hgd hconn
    obtain ⟨n, hnn, hfresh, hc⟩ := growStep_neighbor hstep
    cases fuel with
    | zero => simp [enumRun] at hrun
    | succ fuel =>
      simp only [enumRun] at hrun
      rw [hst] at hrun
      split_ifs at hrun with hlen
      · rw [List.length_eq_zero] at hlen
        rw [hlen] at hnn
        simp at hnn
      · rcases hloop : cmpEmitLoop st l a.1 (getNeighbors edges a.1 a.2)
          with _ | ⟨b1, st1⟩ <;> rw [hloop] at hrun
        · exact absurd hrun (by simp)
        · cases b1 with
          | false => exact absurd hrun (by simp)
          | true =>
            have hev1 : evolves st st1 :=
              cmpEmitLoop_evolves l a.1 _ st true st1 hloop
            obtain ⟨f1, st2, st3, hev2, hsubrun, hev3⟩ :=
              cmpLoop_branch _ fuel st1 st' l a.1 a.2 hrun n hnn
            have hev12 : evolves st st2 := evolves_trans hev1 hev2
            have hgood : goodFor st3 (rsUnion l q.1)
                (maxCard cards (rsUnion l q.1) + cl + cd) := by
              refine ihp f1 st2 st3 cl cd ?_ (hev12.1.trans hst) hwf
                (hev12.2.2.2 cards (by rw [hst]; exact hwf) hci)
                (goodFor_evolves hgl hev12) (goodFor_evolves hgd hev12) hconn
              have : c = (rsUnion a.1 [n], rsInsert n a.2) := hc
              rw [this]
              exact hsubrun
            exact goodFor_evolves hgood hev3

/-- `EmitCSG` on a memoized connected subgraph `u` builds a plan for `u ∪ d`
within the combined budget whenever the complement `d` is memoized, connected
to `u`, and growable from a neighbor of `u`. -/
theorem emitCSG_good (edges : List Edge) (cards : List Nat) (fuel : Nat)
    (st st' : OptState) (u d : RSet) (cu cd : Nat) (n0 : Nat)
    (hrun : enumRun fuel st (.csg u) = some (true, st'))
    (hst : st.edges = edges) (hwf : edgesWF edges) (hci : cardInv cards st)
    (hgu : goodFor st u cu) (hgd : goodFor st d cd)
    (hconn : (getConnection edges u d).isSome = true)
    (hwit : ∃ e ∈ edges, rsIsSubset u e.efrom = true ∧
      e.eto.all (fun x => !(csgExcl u).contains x) = true ∧
      e.eto.head? = some n0)
    (hreach : d = [n0] ∨
      ∃ xd, Relation.TransGen (growStep edges) ([n0], csgExcl u) (d, xd)) :
    goodFor st' (rsUnion u d) (maxCard cards (rsUnion u d) + cu + cd) := by
  cases fuel with
  | zero => simp [enumRun] at hrun
  | succ fuel =>
    simp only [enumRun] at hrun
    rw [hst] at hrun
    have hn0 : n0 ∈ getNeighbors edges u (csgExcl u) :=
      (mem_getNeighbors edges u (csgExcl u) n0).2 hwit
    split_ifs at hrun with hlen
    · rw [List.length_eq_zero] at hlen
      rw [hlen] at hn0
      simp at hn0
    · have hn0' : n0 ∈ rsOfList (getNeighbors edges u (csgExcl u)) :=
        (mem_rsOfList _ _).2 hn0
      obtain ⟨st1, ok, st2, f1, st3, hev1, hae, hok, hcmprun, hev2⟩ :=
        csgLoop_branch _ fuel st st' u (csgExcl u) hrun n0 hn0'
      subst hok
      have hedges1 : st1.edges = edges := hev1.1.trans hst
      have hwf1 : edgesWF st.edges := by rw [hst]; exact hwf
      rcases hreach with rfl | ⟨xd, htg⟩
      · rcases hG : getConnection edges u [n0] with _ | conn
        · rw [hG] at hconn
          exact absurd hconn (by simp)
        · rw [hedges1, hG] at hae
          simp only at hae
          have hgood : goodFor st2 (rsUnion u [n0])
              (maxCard cards (rsUnion u [n0]) + cu + cd) := by
            refine tryEmitPair_good st1 st2 u [n0] conn cards cu cd hae
              (getConnection_filters _ _ _ _ hwf hG) ?_ ?_ ?_
            · exact hev1.2.2.2 cards hwf1 hci
            · exact goodFor_evolves hgu hev1
            · exact goodFor_evolves hgd hev1
          exact goodFor_evolves hgood
            (evolves_trans (enumRun_evolve _ _ _ _ _ hcmprun) hev2)
      · have hevae : evolves st1 st2 := by
          rcases hG : getConnection st1.edges u [n0] with _ | conn <;>
            rw [hG] at hae <;> simp only at hae
          · injection hae with h1 h2
            subst h2
            exact evolves_refl st1
          · have := tryEmitPair_evolves_conn hG u [n0]
            rw [hae] at this
            exact this
        have hev12 : evolves st st2 := evolves_trans hev1 hevae
        have hgood : goodFor st3 (rsUnion u d)
            (maxCard cards (rsUnion u d) + cu + cd) := by
          refine cmp_reach edges cards u ([n0], csgExcl u) (d, xd) htg f1 st2
            st3 cu cd hcmprun (hev12.1.trans hst) hwf
            (hev12.2.2.2 cards hwf1 hci) (goodFor_evolves hgu hev12)
            (goodFor_evolves hgd hev12) hconn
        exact goodFor_evolves hgood hev2

/-! # The subgraph recursion completes every reachable spine -/

theorem csgRec_spine (edges : List Edge) (cards : List Nat) (i : Nat) :
    ∀ (fuel : Nat) (st st' : OptState) (s x u xu : RSet) (cu : Nat)
      (blocks : List (RSet × Nat)),
      enumRun fuel st (.csgRec s x) = some (true, st') →
      st.edges = edges → edgesWF edges → cardInv cards st →
      (∀ z, z ∈ x ↔ (z < i ∨ (z ∈ s ∧ z ≠ i))) →
      i ∈ s →
      growable edges (s, x) (u, xu) →
      goodFor st u cu →
      (s = u → blocks = []) →
      spineBlocksOK edges i u blocks →
      (∀ b ∈ blocks, goodFor st b.1 b.2) →
      goodFor st' (spineEnd u blocks) (spineCost cards u cu blocks) := by
  intro fuel
  induction fuel using Nat.strong_induction_on with
  | _ fuel ihf =>
    intro st st' s x u xu cu blocks hrun hst hwf hci hx hi hgrow hgu hsu hbok
      hbgood
    rcases Relation.ReflTransGen.cases_head hgrow with heq | ⟨c, hstep, hrest⟩
    · rw [Prod.mk.injEq] at heq
      obtain ⟨hsu', -⟩ := heq
      have hblocks := hsu hsu'
      subst hblocks
      simp only [spineEnd, spineCost]
      exact goodFor_evolves hgu (enumRun_evolve _ _ _ _ _ hrun)
    · obtain ⟨n, hnn, hfresh, hc⟩ := growStep_neighbor hstep
      subst hc
      have hni : n ≠ i := fun hni => hfresh (hni ▸ hi)
      cases fuel with
      | zero => simp [enumRun] at hrun
      | succ fuel =>
        simp only [enumRun] at hrun
        rw [hst] at hrun
        split_ifs at hrun with hlen
        · rw [List.length_eq_zero] at hlen
          rw [hlen] at hnn
          simp at hnn
        · rcases hL1 : enumRun fuel st
            (.csgRecEmitLoop s (getNeighbors edges s x))
            with _ | ⟨b1, st1⟩ <;> rw [hL1] at hrun
          · exact absurd hrun (by simp)
          · cases b1 with
            | false => exact absurd hrun (by simp)
            | true =>
              have hevL1 : evolves st st1 := enumRun_evolve _ _ _ _ _ hL1
              have hwfst : edgesWF st.edges := by rw [hst]; exact hwf
              by_cases hend : rsUnion s [n] = u
              · cases blocks with
                | nil =>
                  simp only [spineEnd, spineCost]
                  exact goodFor_evolves hgu (evolves_trans hevL1
                    (enumRun_evolve _ _ _ _ _ hrun))
                | cons b rest =>
                  obtain ⟨B, cB⟩ := b
                  obtain ⟨hbOK, hrestOK⟩ := hbok
                  have hpres : (st.plans.lookup (rsUnion s [n])).isSome = true := by
                    rw [hend]
                    obtain ⟨nd, hl, -⟩ := hgu
                    simp [hl]
                  obtain ⟨st2, f2, st3, hev2, hcsgrun, hev3⟩ :=
                    csgRecEmitLoop_branch _ fuel st st1 s hL1 n hnn hpres
                  rw [hend] at hcsgrun
                  obtain ⟨hconnB, ⟨n0, hwit, hreach⟩, ⟨xe, hgrowB⟩,
                    ⟨y, hyB, hyU⟩⟩ := hbOK
                  have hgood1 : goodFor st3 (rsUnion u B)
                      (maxCard cards (rsUnion u B) + cu + cB) :=
                    emitCSG_good edges cards f2 st2 st3 u B cu cB n0 hcsgrun
                      (hev2.1.trans hst) hwf
                      (hev2.2.2.2 cards hwfst hci)
                      (goodFor_evolves hgu hev2)
                      (goodFor_evolves (hbgood (B, cB) (by simp)) hev2)
                      hconnB hwit hreach
                  have hgood2 : goodFor st1 (rsUnion u B)
                      (maxCard cards (rsUnion u B) + cu + cB) :=
                    goodFor_evolves hgood1 hev3
                  obtain ⟨f3, st4, st5, hf3, hev4, hrecrun, hev5⟩ :=
                    csgRecLoop_branch _ fuel st1 st' s x hrun n hnn
                  rw [hend] at hrecrun
                  have hev014 : evolves st st4 := evolves_trans hevL1 hev4
                  have hiu : i ∈ u := growable_subset hgrow i hi
                  have hmemu : ∀ z, z ∈ u ↔ z ∈ s ∨ z = n := by
                    intro z
                    rw [← hend, mem_rsUnion]
                    simp
                  have hx' : ∀ z, z ∈ rsInsert n x ↔
                      (z < i ∨ (z ∈ u ∧ z ≠ i)) := by
                    intro z
                    rw [mem_rsInsert, hx z, hmemu z]
                    constructor
                    · rintro (rfl | hlt | ⟨hzs, hzi⟩)
                      · exact Or.inr ⟨Or.inr rfl, hni⟩
                      · exact Or.inl hlt
                      · exact Or.inr ⟨Or.inl hzs, hzi⟩
                    · rintro (hlt | ⟨hzs | rfl, hzi⟩)
                      · exact Or.inr (Or.inl hlt)
                      · exact Or.inr (Or.inr ⟨hzs, hzi⟩)
                      · exact Or.inl rfl
                  have hequiv : rsEquiv (canonX i u) (rsInsert n x) := by
                    intro z
                    rw [mem_canonX, hx' z]
                  obtain ⟨xd', hgrow', -⟩ :=
                    growable_transfer (u, canonX i u) (rsUnion u B, xe)
                      hgrowB (rsInsert n x) hequiv
                  have hchild := ihf f3 (lt_trans hf3 (Nat.lt_succ_self fuel))
                    st4 st5 u (rsInsert n x) (rsUnion u B) xd'
                    (maxCard cards (rsUnion u B) + cu + cB) rest hrecrun
                    (hev014.1.trans hst) hwf
                    (hev014.2.2.2 cards hwfst hci) hx' hiu hgrow'
                    (goodFor_evolves hgood2 hev4)
                    (fun habs => False.elim (hyU (by
                      rw [habs]
                      exact (mem_rsUnion y u B).2 (Or.inr hyB))))
                    hrestOK
                    (fun b hb => goodFor_evolves
                      (hbgood b (List.mem_cons_of_mem _ hb)) hev014)
                  simp only [spineEnd, spineCost]
                  exact goodFor_evolves hchild hev5
              · obtain ⟨f3, st4, st5, hf3, hev4, hrecrun, hev5⟩ :=
                  csgRecLoop_branch _ fuel st1 st' s x hrun n hnn
                have hev014 : evolves st st4 := evolves_trans hevL1 hev4
                have hx'' : ∀ z, z ∈ rsInsert n x ↔
                    (z < i ∨ (z ∈ rsUnion s [n] ∧ z ≠ i)) := by
                  intro z
                  rw [mem_rsInsert, hx z, mem_rsUnion]
                  simp only [List.mem_singleton]
                  constructor
                  · rintro (rfl | hlt | ⟨hzs, hzi⟩)
                    · exact Or.inr ⟨Or.inr rfl, hni⟩
                    · exact Or.inl hlt
                    · exact Or.inr ⟨Or.inl hzs, hzi⟩
                  · rintro (hlt | ⟨hzs | rfl, hzi⟩)
                    · exact Or.inr (Or.inl hlt)
                    · exact Or.inr (Or.inr ⟨hzs, hzi⟩)
                    · exact Or.inl rfl
                have hchild := ihf f3 (lt_trans hf3 (Nat.lt_succ_self fuel))
                  st4 st5 (rsUnion s [n]) (rsInsert n x) u xu cu blocks hrecrun
                  (hev014.1.trans hst) hwf (hev014.2.2.2 cards hwfst hci)
                  hx'' ((mem_rsUnion i s [n]).2 (Or.inl hi)) hrest
                  (goodFor_evolves hgu hev014)
                  (fun habs => absurd habs hend)
                  hbok
                  (fun b hb => goodFor_evolves (hbgood b hb) hev014)
                exact goodFor_evolves hchild hev5

/-! # Infrastructure: binary join trees -/

theorem tset_sorted (t : JoinTree) : rsSorted t.tset := by
  induction t with
  | leaf r => exact List.chain'_singleton r
  | node l r ihl ihr => exact rsSorted_rsUnion l.tset r.tset ihr

theorem mem_tset_node (l r : JoinTree) (z : Nat) :
    z ∈ (JoinTree.node l r).tset ↔ z ∈ l.tset ∨ z ∈ r.tset := by
  simp only [JoinTree.tset]
  exact mem_rsUnion z l.tset r.tset

theorem tset_nonempty (t : JoinTree) : ∃ y, y ∈ t.tset := by
  induction t with
  | leaf r => exact ⟨r, by simp [JoinTree.tset]⟩
  | node l r ihl ihr =>
    obtain ⟨y, hy⟩ := ihl
    exact ⟨y, (mem_tset_node l r y).2 (Or.inl hy)⟩

theorem headD_mem (l : List Nat) (y : Nat) (hy : y ∈ l) : l.headD 0 ∈ l := by
  cases l with
  | nil => simp at hy
  | cons a as => simp

theorem treeDisjoint_node (l r : JoinTree) :
    treeDisjoint (.node l r) = true ↔
      treeDisjoint l = true ∧ treeDisjoint r = true ∧
        ∀ z ∈ l.tset, z ∉ r.tset := by
  simp only [treeDisjoint, Bool.and_eq_true, List.all_eq_true,
    Bool.not_eq_true', and_assoc]
  constructor
  · rintro ⟨h1, h2, h3⟩
    refine ⟨h1, h2, ?_⟩
    intro z hz
    have := h3 z hz
    rw [← Bool.not_eq_true, contains_iff] at this
    exact this
  · rintro ⟨h1, h2, h3⟩
    refine ⟨h1, h2, ?_⟩
    intro z hz
    rw [← Bool.not_eq_true, contains_iff]
    exact h3 z hz

theorem cpFree_node (edges : List Edge) (l r : JoinTree) :
    cpFree edges (.node l r) = true ↔
      (getConnection edges l.tset r.tset).isSome = true ∧
        cpFree edges l = true ∧ cpFree edges r = true := by
  simp only [cpFree, Bool.and_eq_true]
  tauto

theorem treeCard_maxCard (edges : List Edge) (cards : List Nat)
    (hwf : edgesWF edges) (t : JoinTree) (hcp : cpFree edges t = true) :
    treeCard cards edges t = maxCard cards t.tset := by
  induction t with
  | leaf r => simp [treeCard, JoinTree.tset, maxCard_single]
  | node l r ihl ihr =>
    obtain ⟨hconn, hcpl, hcpr⟩ := (cpFree_node edges l r).1 hcp
    rcases hg : getConnection edges l.tset r.tset with _ | info
    · rw [hg] at hconn
      exact absurd hconn (by simp)
    · have hfil : info.filters ≠ [] := getConnection_filters _ _ _ _ hwf hg
      simp only [treeCard, hg]
      rw [if_neg (by simpa using hfil), ihl hcpl, ihr hcpr]
      simp only [JoinTree.tset]
      rw [maxCard_rsUnion]

theorem spineEnd_append (bl : List (RSet × Nat)) :
    ∀ (a : RSet) (b : RSet × Nat),
      spineEnd a (bl ++ [b]) = rsUnion (spineEnd a bl) b.1 := by
  induction bl with
  | nil => intro a b; simp [spineEnd]
  | cons c cs ih =>
    intro a b
    obtain ⟨C, cC⟩ := c
    simp only [List.cons_append, spineEnd]
    exact ih (rsUnion a C) b

theorem spineCost_append (cards : List Nat) (bl : List (RSet × Nat)) :
    ∀ (a : RSet) (c : Nat) (B : RSet) (cB : Nat),
      spineCost cards a c (bl ++ [(B, cB)]) =
        maxCard cards (rsUnion (spineEnd a bl) B) + spineCost cards a c bl +
          cB := by
  induction bl with
  | nil => intro a c B cB; simp [spineCost, spineEnd]
  | cons d ds ih =>
    intro a c B cB
    obtain ⟨D, cD⟩ := d
    simp only [List.cons_append, spineCost, spineEnd]
    exact ih (rsUnion a D) (maxCard cards (rsUnion a D) + c + cD) B cB

theorem spineBlocksOK_append (edges : List Edge) (i : Nat)
    (bl : List (RSet × Nat)) :
    ∀ (a : RSet) (B : RSet) (cB : Nat),
      spineBlocksOK edges i a (bl ++ [(B, cB)]) ↔
        spineBlocksOK edges i a bl ∧
          blockOK edges i (spineEnd a bl) B := by
  induction bl with
  | nil =>
    intro a B cB
    simp [spineBlocksOK, spineEnd]
  | cons d ds ih =>
    intro a B cB
    obtain ⟨D, cD⟩ := d
    simp only [List.cons_append, spineBlocksOK, spineEnd, List.append_eq]
    rw [ih (rsUnion a D) B cB]
    tauto

/-! # Cross-product-free trees are growable -/

theorem growsOK_node (edges : List Edge) (hwf : edgesWF edges)
    (l r P Q : JoinTree)
    (hTmem : ∀ z, z ∈ (JoinTree.node l r).tset ↔ z ∈ P.tset ∨ z ∈ Q.tset)
    (hdisj : ∀ z ∈ P.tset, z ∉ Q.tset)
    (hP : growsOK edges P) (hQ : growsOK edges Q)
    (e : Edge) (he : e ∈ edges)
    (hef : ∀ z ∈ e.efrom, z ∈ P.tset) (het : ∀ z ∈ e.eto, z ∈ Q.tset)
    (d : Nat) (hd : d ∈ P.tset) :
    ∀ (s x : RSet), d ∈ s →
      (∀ z ∈ (JoinTree.node l r).tset, z ≠ d → z ∉ x ∧ z ∉ s) →
      ∃ E xe, growable edges (s, x) (E, xe) ∧
        (∀ z, z ∈ E ↔ z ∈ s ∨ z ∈ (JoinTree.node l r).tset) ∧
        (∀ z, z ∈ xe ↔ z ∈ x ∨ (z ∈ (JoinTree.node l r).tset ∧ z ≠ d)) := by
  intro s x hds hcond
  have hdQ : d ∉ Q.tset := hdisj d hd
  obtain ⟨E1, x1, hg1, hE1, hx1⟩ := hP d s x hd hds (fun z hz hzd =>
    hcond z ((hTmem z).2 (Or.inl hz)) hzd)
  obtain ⟨-, hto_ne, -, -⟩ := hwf e he
  obtain ⟨n0, hn0head, hn0mem⟩ :
      ∃ n0, e.eto.head? = some n0 ∧ n0 ∈ e.eto := by
    cases hh : e.eto with
    | nil => exact absurd hh hto_ne
    | cons a as => exact ⟨a, rfl, List.mem_cons_self a as⟩
  have hn0Q : n0 ∈ Q.tset := het n0 hn0mem
  have hn0d : n0 ≠ d := fun hh => hdQ (hh ▸ hn0Q)
  have hn0xs := hcond n0 ((hTmem n0).2 (Or.inr hn0Q)) hn0d
  have hstep : growStep edges (E1, x1) (rsUnion E1 [n0], rsInsert n0 x1) := by
    refine ⟨e, he, n0, ?_, ?_, hn0head, ?_, rfl⟩
    · rw [rsIsSubset_iff]
      intro z hz
      exact (hE1 z).2 (Or.inr (hef z hz))
    · rw [List.all_eq_true]
      intro z hz
      have hzQ : z ∈ Q.tset := het z hz
      have hzd : z ≠ d := fun hh => hdQ (hh ▸ hzQ)
      have hzx := (hcond z ((hTmem z).2 (Or.inr hzQ)) hzd).1
      simp only [Bool.not_eq_true']
      rw [← Bool.not_eq_true, contains_iff]
      intro hzx1
      rcases (hx1 z).1 hzx1 with hzx0 | ⟨hzP, -⟩
      · exact hzx hzx0
      · exact hdisj z hzP hzQ
    · intro hn0E1
      rcases (hE1 n0).1 hn0E1 with hn0s | hn0P
      · exact hn0xs.2 hn0s
      · exact hdisj n0 hn0P hn0Q
  obtain ⟨E2, x2, hg2, hE2, hx2⟩ := hQ n0 (rsUnion E1 [n0]) (rsInsert n0 x1)
    hn0Q ((mem_rsUnion n0 E1 [n0]).2 (Or.inr (by simp)))
    (fun z hz hzn0 => by
      have hzP : z ∉ P.tset := fun hc => hdisj z hc hz
      have hzd : z ≠ d := fun hh => hdQ (hh ▸ hz)
      have hzx := hcond z ((hTmem z).2 (Or.inr hz)) hzd
      constructor
      · intro hmem
        rw [mem_rsInsert] at hmem
        rcases hmem with rfl | hzx1
        · exact hzn0 rfl
        · rcases (hx1 z).1 hzx1 with h | ⟨hzP2, -⟩
          · exact hzx.1 h
          · exact hzP hzP2
      · intro hmem
        rcases (mem_rsUnion z E1 [n0]).1 hmem with hzE1 | hzn0'
        · rcases (hE1 z).1 hzE1 with hzs | hzP2
          · exact hzx.2 hzs
          · exact hzP hzP2
        · exact hzn0 (by simpa using hzn0'))
  refine ⟨E2, x2, ?_, ?_, ?_⟩
  · exact Relation.ReflTransGen.trans hg1 (Relation.ReflTransGen.head hstep hg2)
  · intro z
    rw [hE2 z]
    constructor
    · rintro (hmem | hzQ)
      · rcases (mem_rsUnion z E1 [n0]).1 hmem with hzE1 | hzn0'
        · rcases (hE1 z).1 hzE1 with hzs | hzP2
          · exact Or.inl hzs
          · exact Or.inr ((hTmem z).2 (Or.inl hzP2))
        · have hz0 : z = n0 := by simpa using hzn0'
          exact Or.inr ((hTmem z).2 (Or.inr (hz0 ▸ hn0Q)))
      · exact Or.inr ((hTmem z).2 (Or.inr hzQ))
    · rintro (hzs | hzT)
      · exact Or.inl ((mem_rsUnion z E1 [n0]).2
          (Or.inl ((hE1 z).2 (Or.inl hzs))))
      · rcases (hTmem z).1 hzT with hzP2 | hzQ2
        · exact Or.inl ((mem_rsUnion z E1 [n0]).2
            (Or.inl ((hE1 z).2 (Or.inr hzP2))))
        · exact Or.inr hzQ2
  · intro z
    rw [hx2 z, mem_rsInsert, hx1 z]
    constructor
    · rintro ((hzeq | hzx | ⟨hzP2, hzd2⟩) | ⟨hzQ2, hzn0⟩)
      · subst hzeq
        exact Or.inr ⟨(hTmem z).2 (Or.inr hn0Q), hn0d⟩
      · exact Or.inl hzx
      · exact Or.inr ⟨(hTmem z).2 (Or.inl hzP2), hzd2⟩
      · exact Or.inr ⟨(hTmem z).2 (Or.inr hzQ2),
          fun hh => hdQ (hh ▸ hzQ2)⟩
    · rintro (hzx | ⟨hzT, hzd2⟩)
      · exact Or.inl (Or.inr (Or.inl hzx))
      · rcases (hTmem z).1 hzT with hzP2 | hzQ2
        · exact Or.inl (Or.inr (Or.inr ⟨hzP2, hzd2⟩))
        · by_cases hzn0 : z = n0
          · exact Or.inl (Or.inl hzn0)
          · exact Or.inr ⟨hzQ2, hzn0⟩

theorem tree_growable (edges : List Edge) (hwf : edgesWF edges) :
    ∀ (t : JoinTree), cpFree edges t = true → treeDisjoint t = true →
      growsOK edges t := by
  intro t
  induction t with
  | leaf r =>
    intro hcp hdisj d s x hd hds hcond
    have hrd : d = r := by simpa [JoinTree.tset] using hd
    subst hrd
    refine ⟨s, x, Relation.ReflTransGen.refl, ?_, ?_⟩
    · intro z
      simp only [JoinTree.tset, List.mem_singleton]
      constructor
      · exact Or.inl
      · rintro (hz | rfl)
        · exact hz
        · exact hds
    · intro z
      simp only [JoinTree.tset, List.mem_singleton]
      constructor
      · exact Or.inl
      · rintro (hz | ⟨rfl, hne⟩)
        · exact hz
        · exact absurd rfl hne
  | node l r ihl ihr =>
    intro hcp hdisj
    obtain ⟨hconn, hcpl, hcpr⟩ := (cpFree_node edges l r).1 hcp
    obtain ⟨hdl, hdr, hlr⟩ := (treeDisjoint_node l r).1 hdisj
    obtain ⟨e, he, hef, het⟩ :=
      (getConnection_isSome_iff edges l.tset r.tset).1 hconn
    have hef' : ∀ z ∈ e.efrom, z ∈ l.tset := (rsIsSubset_iff _ _).1 hef
    have het' : ∀ z ∈ e.eto, z ∈ r.tset := (rsIsSubset_iff _ _).1 het
    intro d s x hd hds hcond
    rcases (mem_tset_node l r d).1 hd with hdL | hdR
    · exact growsOK_node edges hwf l r l r (mem_tset_node l r)
        hlr (ihl hcpl hdl) (ihr hcpr hdr) e he hef' het' d hdL s x hds hcond
    · obtain ⟨-, -, -, e', he', hfrom', hto'⟩ := hwf e he
      refine growsOK_node edges hwf l r r l ?_ ?_ (ihr hcpr hdr)
        (ihl hcpl hdl) e' he' ?_ ?_ d hdR s x hds hcond
      · intro z
        rw [mem_tset_node]
        tauto
      · intro z hzr hzl
        exact hlr z hzl hzr
      · intro z hz
        rw [hfrom'] at hz
        exact het' z hz
      · intro z hz
        rw [hto'] at hz
        exact hef' z hz

theorem blockOK_of_tree (edges : List Edge) (i : Nat) (hwf : edgesWF edges)
    (A : RSet) (TB : JoinTree)
    (hcp : cpFree edges TB = true) (hdisj : treeDisjoint TB = true)
    (hconn : (getConnection edges A TB.tset).isSome = true)
    (hheadA : A.headD 0 = i)
    (hAB : ∀ z ∈ TB.tset, z ∉ A) (hBgt : ∀ z ∈ TB.tset, i < z) :
    blockOK edges i A TB.tset := by
  obtain ⟨e, he, hef, het⟩ :=
    (getConnection_isSome_iff edges A TB.tset).1 hconn
  have hef' : ∀ z ∈ e.efrom, z ∈ A := (rsIsSubset_iff _ _).1 hef
  have het' : ∀ z ∈ e.eto, z ∈ TB.tset := (rsIsSubset_iff _ _).1 het
  obtain ⟨-, hto_ne, -, -⟩ := hwf e he
  obtain ⟨n0, hn0head, hn0mem⟩ :
      ∃ n0, e.eto.head? = some n0 ∧ n0 ∈ e.eto := by
    cases hh : e.eto with
    | nil => exact absurd hh hto_ne
    | cons a as => exact ⟨a, rfl, List.mem_cons_self a as⟩
  have hn0B : n0 ∈ TB.tset := het' n0 hn0mem
  have hexcl : ∀ z ∈ TB.tset, z ∉ csgExcl A := by
    intro z hz hmem
    rw [mem_csgExcl] at hmem
    rcases hmem with hzA | hzlt
    · exact hAB z hz hzA
    · rw [hheadA] at hzlt
      have := hBgt z hz
      omega
  have hgrows := tree_growable edges hwf TB hcp hdisj
  refine ⟨hconn, ⟨n0, ⟨e, he, hef, ?_, hn0head⟩, ?_⟩, ?_,
    ⟨n0, hn0B, hAB n0 hn0B⟩⟩
  · rw [List.all_eq_true]
    intro z hz
    simp only [Bool.not_eq_true']
    rw [← Bool.not_eq_true, contains_iff]
    exact hexcl z (het' z hz)
  · -- the complement side: grow TB from {n0} under csgExcl A
    obtain ⟨E, xe, hg, hE, -⟩ := hgrows n0 [n0] (csgExcl A) hn0B (by simp)
      (fun z hz hzn0 => ⟨hexcl z hz, by simpa using hzn0⟩)
    have hEeq : E = TB.tset := by
      refine rsSorted_canonical E TB.tset
        (growable_sorted hg (List.chain'_singleton n0)) (tset_sorted TB) ?_
      intro z
      rw [hE z]
      simp only [List.mem_singleton]
      constructor
      · rintro (rfl | hz)
        · exact hn0B
        · exact hz
      · exact Or.inr
    rcases Relation.ReflTransGen.cases_head hg with heq | ⟨c, hstep, hrest⟩
    · rw [Prod.mk.injEq] at heq
      obtain ⟨h1, -⟩ := heq
      exact Or.inl (hEeq ▸ h1.symm)
    · refine Or.inr ⟨xe, ?_⟩
      have htg := Relation.TransGen.head' hstep hrest
      rw [hEeq] at htg
      exact htg
  · -- the subgraph side: grow A to A ∪ TB.tset under the canonical exclusion
    have hstep : growStep edges (A, canonX i A)
        (rsUnion A [n0], rsInsert n0 (canonX i A)) := by
      refine ⟨e, he, n0, hef, ?_, hn0head, hAB n0 hn0B, rfl⟩
      rw [List.all_eq_true]
      intro z hz
      simp only [Bool.not_eq_true']
      rw [← Bool.not_eq_true, contains_iff]
      intro hmem
      rw [mem_canonX] at hmem
      have hzB := het' z hz
      rcases hmem with hzlt | ⟨hzA, -⟩
      · have := hBgt z hzB
        omega
      · exact hAB z hzB hzA
    obtain ⟨E2, xe2, hg2, hE2, -⟩ := hgrows n0 (rsUnion A [n0])
      (rsInsert n0 (canonX i A)) hn0B
      ((mem_rsUnion n0 A [n0]).2 (Or.inr (by simp)))
      (fun z hz hzn0 => by
        constructor
        · intro hmem
          rw [mem_rsInsert] at hmem
          rcases hmem with rfl | hmem2
          · exact hzn0 rfl
          · rw [mem_canonX] at hmem2
            rcases hmem2 with hzlt | ⟨hzA, -⟩
            · have := hBgt z hz
              omega
            · exact hAB z hz hzA
        · intro hmem
          rcases (mem_rsUnion z A [n0]).1 hmem with hzA | hzn0'
          · exact hAB z hz hzA
          · exact hzn0 (by simpa using hzn0'))
    have hE2eq : E2 = rsUnion A TB.tset := by
      refine rsSorted_canonical E2 (rsUnion A TB.tset)
        (growable_sorted hg2
          (rsSorted_rsUnion A [n0] (List.chain'_singleton n0)))
        (rsSorted_rsUnion A TB.tset (tset_sorted TB)) ?_
      intro z
      rw [hE2 z, mem_rsUnion, mem_rsUnion]
      simp only [List.mem_singleton]
      constructor
      · rintro ((hzA | rfl) | hzB)
        · exact Or.inl hzA
        · exact Or.inr hn0B
        · exact Or.inr hzB
      · rintro (hzA | hzB)
        · exact Or.inl (Or.inl hzA)
        · exact Or.inr hzB
    refine ⟨xe2, ?_⟩
    have := Relation.ReflTransGen.head hstep hg2
    rw [hE2eq] at this
    exact this

theorem tree_spine (edges : List Edge) (cards : List Nat) (i : Nat)
    (hwf : edgesWF edges) :
    ∀ (T : JoinTree), cpFree edges T = true → treeDisjoint T = true →
      i ∈ T.tset → (∀ z ∈ T.tset, i ≤ z) →
      ∃ blocks : List (RSet × Nat),
        spineBlocksOK edges i [i] blocks ∧
        spineEnd [i] blocks = T.tset ∧
        spineCost cards [i] 0 blocks = treeCost cards edges T ∧
        ∀ b ∈ blocks, ∃ TB : JoinTree,
          b.1 = TB.tset ∧ b.2 = treeCost cards edges TB ∧
          cpFree edges TB = true ∧ treeDisjoint TB = true ∧
          (∀ z ∈ TB.tset, z ∈ T.tset) ∧ i ∉ TB.tset := by
  intro T
  induction T with
  | leaf r =>
    intro hcp hdisj hi hmin
    have hri : i = r := by simpa [JoinTree.tset] using hi
    subst hri
    refine ⟨[], trivial, ?_, ?_, by simp⟩
    · simp [spineEnd, JoinTree.tset]
    · simp [spineCost, treeCost]
  | node l r ihl ihr =>
    intro hcp hdisj hi hmin
    obtain ⟨hconn, hcpl, hcpr⟩ := (cpFree_node edges l r).1 hcp
    obtain ⟨hdl, hdr, hlr⟩ := (treeDisjoint_node l r).1 hdisj
    have hminl : ∀ z ∈ l.tset, i ≤ z := fun z hz =>
      hmin z ((mem_tset_node l r z).2 (Or.inl hz))
    have hminr : ∀ z ∈ r.tset, i ≤ z := fun z hz =>
      hmin z ((mem_tset_node l r z).2 (Or.inr hz))
    by_cases hil : i ∈ l.tset
    · obtain ⟨bl, hblOK, hblEnd, hblCost, hblData⟩ := ihl hcpl hdl hil hminl
      have hinotr : i ∉ r.tset := hlr i hil
      refine ⟨bl ++ [(r.tset, treeCost cards edges r)], ?_, ?_, ?_, ?_⟩
      · rw [spineBlocksOK_append]
        refine ⟨hblOK, ?_⟩
        rw [hblEnd]
        refine blockOK_of_tree edges i hwf l.tset r hcpr hdr hconn ?_ ?_ ?_
        · exact sorted_headD_eq l.tset i (tset_sorted l) hil hminl
        · intro z hz hzl
          exact hlr z hzl hz
        · intro z hz
          have h1 := hminr z hz
          have h2 : z ≠ i := fun hh => hinotr (hh ▸ hz)
          omega
      · rw [spineEnd_append, hblEnd]
        rfl
      · rw [spineCost_append, hblEnd, hblCost]
        have hcard := treeCard_maxCard edges cards hwf (.node l r) hcp
        simp only [JoinTree.tset] at hcard
        simp only [treeCost]
        rw [← hcard]
      · intro b hb
        rcases List.mem_append.1 hb with hbl | hbr
        · obtain ⟨TB, h1, h2, h3, h4, h5, h6⟩ := hblData b hbl
          exact ⟨TB, h1, h2, h3, h4,
            fun z hz => (mem_tset_node l r z).2 (Or.inl (h5 z hz)), h6⟩
        · have hbeq : b = (r.tset, treeCost cards edges r) := by simpa using hbr
          subst hbeq
          exact ⟨r, rfl, rfl, hcpr, hdr,
            fun z hz => (mem_tset_node l r z).2 (Or.inr hz), hinotr⟩
    · have hir : i ∈ r.tset := by
        rcases (mem_tset_node l r i).1 hi with h | h
        · exact absurd h hil
        · exact h
      obtain ⟨bl, hblOK, hblEnd, hblCost, hblData⟩ := ihr hcpr hdr hir hminr
      have hconn' : (getConnection edges r.tset l.tset).isSome = true :=
        getConnection_symm edges l.tset r.tset hwf hconn
      refine ⟨bl ++ [(l.tset, treeCost cards edges l)], ?_, ?_, ?_, ?_⟩
      · rw [spineBlocksOK_append]
        refine ⟨hblOK, ?_⟩
        rw [hblEnd]
        refine blockOK_of_tree edges i hwf r.tset l hcpl hdl hconn' ?_ ?_ ?_
        · exact sorted_headD_eq r.tset i (tset_sorted r) hir hminr
        · intro z hz
          exact fun hzr => hlr z hz hzr
        · intro z hz
          have h1 := hminl z hz
          have h2 : z ≠ i := fun hh => hil (hh ▸ hz)
          omega
      · rw [spineEnd_append, hblEnd]
        show rsUnion r.tset l.tset = rsUnion l.tset r.tset
        refine rsSorted_canonical _ _
          (rsSorted_rsUnion _ _ (tset_sorted l))
          (rsSorted_rsUnion _ _ (tset_sorted r)) ?_
        intro z
        rw [mem_rsUnion, mem_rsUnion]
        tauto
      · rw [spineCost_append, hblEnd, hblCost]
        have hcard := treeCard_maxCard edges cards hwf (.node l r) hcp
        simp only [JoinTree.tset] at hcard
        have hmc : maxCard cards (rsUnion r.tset l.tset) =
            maxCard cards (rsUnion l.tset r.tset) := by
          refine maxCard_congr cards _ _ ?_
          intro z
          rw [mem_rsUnion, mem_rsUnion]
          tauto
        simp only [treeCost]
        rw [hmc, ← hcard]
        omega
      · intro b hb
        rcases List.mem_append.1 hb with hbl | hbr
        · obtain ⟨TB, h1, h2, h3, h4, h5, h6⟩ := hblData b hbl
          exact ⟨TB, h1, h2, h3, h4,
            fun z hz => (mem_tset_node l r z).2 (Or.inr (h5 z hz)), h6⟩
        · have hbeq : b = (l.tset, treeCost cards edges l) := by simpa using hbr
          subst hbeq
          exact ⟨l, rfl, rfl, hcpl, hdl,
            fun z hz => (mem_tset_node l r z).2 (Or.inl hz), hil⟩

theorem coversOnce_go_eq (t : JoinTree) :
    JoinTree.coversOnce.go t = treeDisjoint t := by
  induction t with
  | leaf r => rfl
  | node l r ihl ihr =>
    simp only [JoinTree.coversOnce.go, treeDisjoint, ihl, ihr]

theorem coversOnce_parts (t : JoinTree) (n : Nat) (h : t.coversOnce n = true) :
    t.tset = List.range n ∧ treeDisjoint t = true := by
  unfold JoinTree.coversOnce at h
  rw [Bool.and_eq_true, decide_eq_true_iff] at h
  exact ⟨h.1, (coversOnce_go_eq t) ▸ h.2⟩

/-- One iteration of `SolveJoinOrderExactly` (the `EmitCSG` +
`EnumerateCSGRecursive` pass for start node `i`) builds a plan within budget
for every cross-product-free tree whose minimum relation is `i`, provided
every hanging subtree (whose minimum is larger) is already memoized within
budget. -/
theorem iteration_good (edges : List Edge) (cards : List Nat) (i : Nat)
    (hwf : edgesWF edges) (f1 f2 : Nat) (st st1 st2 : OptState)
    (T : JoinTree)
    (hrun1 : enumRun f1 st (.csg [i]) = some (true, st1))
    (hrun2 : enumRun f2 st1 (.csgRec [i]
      ((List.range i).foldl (fun acc j => rsInsert j acc) [])) =
      some (true, st2))
    (hst : st.edges = edges) (hci : cardInv cards st)
    (hcp : cpFree edges T = true) (hdisj : treeDisjoint T = true)
    (hiT : i ∈ T.tset) (hmin : ∀ z ∈ T.tset, i ≤ z)
    (hsing : goodFor st [i] 0)
    (hblocks : ∀ TB : JoinTree, cpFree edges TB = true →
      treeDisjoint TB = true → (∀ z ∈ TB.tset, z ∈ T.tset) → i ∉ TB.tset →
      goodFor st TB.tset (treeCost cards edges TB)) :
    goodFor st2 T.tset (treeCost cards edges T) := by
  obtain ⟨blocks, hOK, hEnd, hCost, hData⟩ :=
    tree_spine edges cards i hwf T hcp hdisj hiT hmin
  have hev1 : evolves st st1 := enumRun_evolve _ _ _ _ _ hrun1
  have hx0 : ∀ z,
      z ∈ ((List.range i).foldl (fun acc j => rsInsert j acc) []) ↔
        z < i := by
    intro z
    rw [mem_foldl_rsInsert]
    simp [List.mem_range]
  cases blocks with
  | nil =>
    simp only [spineEnd] at hEnd
    simp only [spineCost] at hCost
    rw [← hEnd, ← hCost]
    exact goodFor_evolves hsing
      (evolves_trans hev1 (enumRun_evolve _ _ _ _ _ hrun2))
  | cons b rest =>
    obtain ⟨B1, c1⟩ := b
    obtain ⟨hbOK, hrestOK⟩ := hOK
    obtain ⟨hconnB, ⟨n0, hwit, hreach⟩, ⟨xe, hgrowB⟩, ⟨y, hyB, hyU⟩⟩ := hbOK
    obtain ⟨TB1, hB1set, hB1cost, hB1cp, hB1disj, hB1sub, hB1noti⟩ :=
      hData (B1, c1) (by simp)
    have hgB1 : goodFor st B1 c1 := by
      simp only at hB1set hB1cost
      rw [hB1set, hB1cost]
      exact hblocks TB1 hB1cp hB1disj hB1sub hB1noti
    have hgood1 : goodFor st1 (rsUnion [i] B1)
        (maxCard cards (rsUnion [i] B1) + 0 + c1) :=
      emitCSG_good edges cards f1 st st1 [i] B1 0 c1 n0 hrun1 hst hwf hci
        hsing hgB1 hconnB hwit hreach
    have hequiv : rsEquiv (canonX i [i])
        ((List.range i).foldl (fun acc j => rsInsert j acc) []) := by
      intro z
      rw [mem_canonX, hx0 z]
      constructor
      · rintro (h | ⟨hz, hne⟩)
        · exact h
        · simp at hz
          exact absurd hz hne
      · exact Or.inl
    obtain ⟨xd', hgrow', -⟩ := growable_transfer ([i], canonX i [i])
      (rsUnion [i] B1, xe) hgrowB _ hequiv
    have hmaster := csgRec_spine edges cards i f2 st1 st2 [i] _
      (rsUnion [i] B1) xd' (maxCard cards (rsUnion [i] B1) + 0 + c1) rest
      hrun2 (hev1.1.trans hst) hwf
      (hev1.2.2.2 cards (by rw [hst]; exact hwf) hci)
      (fun z => by
        rw [hx0 z]
        constructor
        · exact Or.inl
        · rintro (h | ⟨hz, hne⟩)
          · exact h
          · simp at hz
            exact absurd hz hne)
      (by simp)
      hgrow' hgood1
      (fun habs => False.elim (hyU (by
        rw [habs]
        exact (mem_rsUnion y [i] B1).2 (Or.inr hyB))))
      hrestOK
      (fun b hb => goodFor_evolves (by
        obtain ⟨TB, h1, h2, h3, h4, h5, h6⟩ :=
          hData b (List.mem_cons_of_mem _ hb)
        rw [h1, h2]
        exact hblocks TB h3 h4 h5 h6) hev1)
    simp only [spineEnd] at hEnd
    simp only [spineCost] at hCost
    rw [← hEnd, ← hCost]
    exact hmaster

/-- The descending start-node loop of `SolveJoinOrderExactly` leaves every
cross-product-free tree memoized within its cost. -/
theorem solveLoop_trees (edges : List Edge) (cards : List Nat) (n : Nat)
    (hwf : edgesWF edges) :
    ∀ (k fuel : Nat) (st st' : OptState),
      solveExactLoop fuel st k = some (true, st') →
      st.edges = edges → cardInv cards st →
      (∀ j, j < n → goodFor st [j] 0) →
      (∀ T : JoinTree, cpFree edges T = true → treeDisjoint T = true →
        (∀ z ∈ T.tset, z < n) → k ≤ T.tset.headD 0 →
        goodFor st T.tset (treeCost cards edges T)) →
      ∀ T : JoinTree, cpFree edges T = true → treeDisjoint T = true →
        (∀ z ∈ T.tset, z < n) →
        goodFor st' T.tset (treeCost cards edges T) := by
  intro k
  induction k with
  | zero =>
    intro fuel st st' h hst hci hsing hdone T hcp hdisj hlt
    simp only [solveExactLoop] at h
    injection h with h
    injection h with h1 h2
    subst h2
    exact hdone T hcp hdisj hlt (Nat.zero_le _)
  | succ k ih =>
    intro fuel st st' h hst hci hsing hdone T hcp hdisj hlt
    simp only [solveExactLoop] at h
    rcases h1 : emitCSG fuel st [k] with _ | ⟨b1, stA⟩ <;> rw [h1] at h
    · exact absurd h (by simp)
    · cases b1 with
      | false => exact absurd h (by simp)
      | true =>
        simp only at h
        rcases h2 : enumerateCSGRecursive fuel stA [k]
          ((List.range k).foldl (fun acc j => rsInsert j acc) [])
          with _ | ⟨b2, stB⟩ <;> rw [h2] at h
        · exact absurd h (by simp)
        · cases b2 with
          | false => exact absurd h (by simp)
          | true =>
            unfold emitCSG at h1
            unfold enumerateCSGRecursive at h2
            have hevA : evolves st stA := enumRun_evolve _ _ _ _ _ h1
            have hevB : evolves stA stB := enumRun_evolve _ _ _ _ _ h2
            have hevAB : evolves st stB := evolves_trans hevA hevB
            refine ih fuel stB st' h (hevAB.1.trans hst)
              (hevAB.2.2.2 cards (by rw [hst]; exact hwf) hci)
              (fun j hj => goodFor_evolves (hsing j hj) hevAB) ?_
              T hcp hdisj hlt
            intro T2 hcp2 hdisj2 hlt2 hk2
            by_cases hhead : k + 1 ≤ T2.tset.headD 0
            · exact goodFor_evolves (hdone T2 hcp2 hdisj2 hlt2 hhead) hevAB
            · have hheadk : T2.tset.headD 0 = k := by omega
              obtain ⟨y0, hy0⟩ := tset_nonempty T2
              have hkmem : k ∈ T2.tset := by
                have := headD_mem T2.tset y0 hy0
                rw [hheadk] at this
                exact this
              have hmin2 : ∀ z ∈ T2.tset, k ≤ z := fun z hz => by
                have := sorted_headD_le T2.tset z (tset_sorted T2) hz
                rw [hheadk] at this
                exact this
              refine iteration_good edges cards k hwf fuel fuel st stA stB T2
                h1 h2 hst hci hcp2 hdisj2 hkmem hmin2
                (hsing k (hlt2 k hkmem)) ?_
              intro TB hcpB hdisjB hsubB hnotiB
              refine hdone TB hcpB hdisjB
                (fun z hz => hlt2 z (hsubB z hz)) ?_
              obtain ⟨yB, hyB⟩ := tset_nonempty TB
              have hheadB := headD_mem TB.tset yB hyB
              have h1B := hmin2 _ (hsubB _ hheadB)
              have h2B : TB.tset.headD 0 ≠ k := fun hh => hnotiB (hh ▸ hheadB)
              omega

/-- C1 (amended): whenever `SolveJoinOrderExactly` completes without hitting
the 10 000-pair budget on a well-formed query graph (every edge group carries
a filter, has an interned sorted target, and appears in both orientations, as
the edges built by `Optimize` do) starting from the singleton memo, the plan
it leaves for the full relation set costs at most — under the cost model of
`CreateJoinTree` — the cost of every cross-product-free join tree over those
relations, i.e. of every binary tree in which the query graph connects the
two sides of every internal node.  (The claim's original universal
quantification over all binary trees is refuted by
`claim1_counterexample_cross_product_tree`.) -/
theorem claim1_exact_enumeration_optimal
    (cards : List Nat) (n : Nat) (st0 st' : OptState) (T : JoinTree)
    (nd : JoinNode)
    (hn : st0.relationCount = n)
    (hwf : edgesWF st0.edges)
    (hplans : ∀ j, j < n →
      st0.plans.lookup [j] = some (.leaf [j] (cards.getD j 0)))
    (hci : cardInv cards st0)
    (hrun : solveJoinOrderExactly st0 = some (true, st'))
    (hcov : T.coversOnce n = true)
    (hcp : cpFree st0.edges T = true)
    (hlook : st'.plans.lookup (List.range n) = some nd) :
    nd.cost ≤ treeCost cards st0.edges T := by
  obtain ⟨htset, hdisj⟩ := coversOnce_parts T n hcov
  unfold solveJoinOrderExactly at hrun
  rw [hn] at hrun
  have hgood := solveLoop_trees st0.edges cards n hwf n _ st0 st' hrun rfl hci
    (fun j hj => ⟨_, hplans j hj, le_rfl⟩)
    (fun T2 hcp2 hdisj2 hlt2 hk2 => by
      obtain ⟨y, hy⟩ := tset_nonempty T2
      have := hlt2 _ (headD_mem T2.tset y hy)
      omega)
    T hcp hdisj (fun z hz => by rw [htset] at hz; exact List.mem_range.1 hz)
  rw [htset] at hgood
  obtain ⟨nd', hl, hcost⟩ := hgood
  rw [hlook] at hl
  injection hl with he
  subst he
  exact hcost

theorem lookup_mem (l : List (RSet × JoinNode)) (s : RSet) (nd : JoinNode) :
    l.lookup s = some nd → (s, nd) ∈ l := by
  induction l with
  | nil => simp [List.lookup]
  | cons e rest ih =>
    obtain ⟨a, b⟩ := e
    intro h
    simp only [List.lookup] at h
    by_cases hsa : s = a
    · subst hsa
      simp only [beq_self_eq_true] at h
      injection h with h
      subst h
      exact List.mem_cons_self _ _
    · have hbe : (s == a) = false := by simp [hsa]
      rw [hbe] at h
      exact List.mem_cons_of_mem _ (ih h)

/-- Witness for the amended C1: on the chain `0 — 1 — 2` with cardinalities
`[1, 100, 1]`, the plan the exact enumeration leaves for `{0, 1, 2}` (cost
200) costs at most the cross-product-free tree `(0 ⋈ 1) ⋈ 2` (cost 200). -/
theorem claim1_exact_enumeration_optimal_witness :
    chainFinalNode.cost ≤ treeCost chainCards chainState.edges
      (JoinTree.node (.node (.leaf 0) (.leaf 1)) (.leaf 2)) := by
  refine claim1_exact_enumeration_optimal chainCards 3 chainState
    chainFinalState (JoinTree.node (.node (.leaf 0) (.leaf 1)) (.leaf 2))
    chainFinalNode rfl ?_ (by decide) ?_ rfl (by decide) (by decide)
    rfl
  · intro e he
    simp only [chainState, chainEdges, List.mem_cons, List.not_mem_nil,
      or_false] at he
    rcases he with rfl | rfl | rfl | rfl
    · exact ⟨by decide, by decide, List.chain'_singleton 1,
        ⟨⟨[1], [0], [chainFilterAB]⟩, by simp [chainState, chainEdges],
          rfl, rfl⟩⟩
    · exact ⟨by decide, by decide, List.chain'_singleton 0,
        ⟨⟨[0], [1], [chainFilterAB]⟩, by simp [chainState, chainEdges],
          rfl, rfl⟩⟩
    · exact ⟨by decide, by decide, List.chain'_singleton 2,
        ⟨⟨[2], [1], [chainFilterBC]⟩, by simp [chainState, chainEdges],
          rfl, rfl⟩⟩
    · exact ⟨by decide, by decide, List.chain'_singleton 1,
        ⟨⟨[1], [2], [chainFilterBC]⟩, by simp [chainState, chainEdges],
          rfl, rfl⟩⟩
  intro s nd h
  have hm := lookup_mem _ _ _ h
  simp only [chainState, List.mem_cons, List.not_mem_nil, or_false,
    Prod.mk.injEq] at hm
  rcases hm with ⟨rfl, rfl⟩ | ⟨rfl, rfl⟩ | ⟨rfl, rfl⟩ <;> decide

end JoinOrder
